import Mathlib

/-!
# Verification of the cabinet-data scraping pipeline

Shallow embedding of `src/scrape_data.py` (functions `create_cabinet_csv` and
`combine_cabinets`) together with proofs settling the specification claims.

Tables are modelled as lists of column names plus rows of cells; pandas
element-wise string operations are modelled as Lean functions on `List Char` /
`String`.  Regular-expression steps of the source are hand-compiled to
recursive scanners with Python `re.search` (leftmost match) semantics.
-/

namespace ScrapeData

/-- Python's `\s` character class (and `str.strip` default set), restricted to
the ASCII whitespace characters: space, tab, newline, carriage return,
vertical tab, form feed. -/
def isPySpace (c : Char) : Bool :=
  c = ' ' || c = '\t' || c = '\n' || c = '\r' || c = Char.ofNat 11 || c = Char.ofNat 12

/-- ASCII decimal digit, Python's `\d` on ASCII input. -/
def isPyDigit (c : Char) : Bool := c.isDigit

/-! ## Name cleaning (`create_cabinet_csv`, lines 85-90)

`df["Name"].str.replace(r"<[^>]+>", "", regex=True)` followed by
`.str.replace(r"\s+", " ", regex=True).str.strip()`. -/

/-- Split a character list at its first `'>'`: returns the (possibly empty)
segment strictly before the first `'>'` and the remainder strictly after it,
or `none` when no `'>'` occurs. -/
def splitAtGt : List Char → Option (List Char × List Char)
  | [] => none
  | c :: cs =>
    if c = '>' then some ([], cs)
    else
      match splitAtGt cs with
      | none => none
      | some (a, b) => some (c :: a, b)

theorem splitAtGt_append {l : List Char} {a b : List Char}
    (h : splitAtGt l = some (a, b)) : l = a ++ '>' :: b := by
  induction l generalizing a b with
  | nil => simp [splitAtGt] at h
  | cons c cs ih =>
    by_cases hc : c = '>'
    · simp [splitAtGt, hc] at h
      simp [hc, h.1, h.2]
    · simp only [splitAtGt, if_neg hc] at h
      cases hs : splitAtGt cs with
      | none => rw [hs] at h; simp at h
      | some p =>
        rw [hs] at h
        cases p with
        | mk a' b' =>
          simp at h
          obtain ⟨ha, hb⟩ := h
          subst ha; subst hb
          simp [ih hs]

theorem splitAtGt_length {l : List Char} {a b : List Char}
    (h : splitAtGt l = some (a, b)) : b.length < l.length := by
  have := splitAtGt_append h
  subst this
  simp
  omega

theorem splitAtGt_none {l : List Char} (h : '>' ∉ l) : splitAtGt l = none := by
  induction l with
  | nil => rfl
  | cons c cs ih =>
    simp at h
    simp [splitAtGt, Ne.symm h.1, ih h.2]

/-- One pass of Python's global `re.sub(r"<[^>]+>", "", s)`: scan left to
right; at each `'<'`, if a nonempty run of non-`'>'` characters followed by a
`'>'` starts right after it, delete through that `'>'` and continue after it,
otherwise emit the character and move on. -/
def stripTagsAux : List Char → List Char
  | [] => []
  | c :: cs =>
    if c = '<' then
      match h : splitAtGt cs with
      | some (a, b) => if a = [] then c :: stripTagsAux cs else stripTagsAux b
      | none => c :: stripTagsAux cs
    else c :: stripTagsAux cs
termination_by l => l.length
decreasing_by
  all_goals (try have := splitAtGt_length h)
  all_goals simp_all
  all_goals omega

/-- Python `re.sub(r"\s+", " ", s)`: every maximal run of whitespace is
replaced by a single space.  The flag records whether the previous character
belonged to a whitespace run. -/
def collapseWsAux : Bool → List Char → List Char
  | _, [] => []
  | inRun, c :: cs =>
    if isPySpace c then
      if inRun then collapseWsAux true cs else ' ' :: collapseWsAux true cs
    else c :: collapseWsAux false cs

def collapseWs (l : List Char) : List Char := collapseWsAux false l

/-- Remove trailing characters satisfying `isPySpace` (right half of
Python's `str.strip()`). -/
def trimTrailing : List Char → List Char
  | [] => []
  | c :: cs =>
    let t := trimTrailing cs
    if t = [] then (if isPySpace c then [] else [c]) else c :: t

/-- Python `str.strip()`. -/
def pyStripChars (l : List Char) : List Char := trimTrailing (l.dropWhile isPySpace)

/-- Python `str.strip()` on a `String`. -/
def pyStrip (s : String) : String := String.mk (pyStripChars s.data)

/-- The composite cleaning applied to `Name` cells (lines 88-90): strip HTML
tags, collapse whitespace runs, strip both ends. -/
def cleanNameChars (l : List Char) : List Char :=
  pyStripChars (collapseWs (stripTagsAux l))

def cleanName (s : String) : String := String.mk (cleanNameChars s.data)

/-! ## Header flattening and duplicate-name resolution
(`create_cabinet_csv`, lines 48-70) -/

/-- Decimal rendering of a natural number, little-endian digit list
(auxiliary for Python's integer `f`-string formatting). -/
def natToRevDigits : Nat → List Char
  | 0 => []
  | n + 1 => Nat.digitChar ((n + 1) % 10) :: natToRevDigits ((n + 1) / 10)
decreasing_by exact Nat.div_lt_self (Nat.succ_pos n) (by norm_num)

/-- Decimal rendering of a natural number as Python's `str(n)`. -/
def natRepr (n : Nat) : String :=
  if n = 0 then "0" else String.mk (natToRevDigits n).reverse

/-- Python `f"{col}_{suffix_idx}"` (line 68). -/
def suffixName (col : String) (idx : Nat) : String := col ++ "_" ++ natRepr idx

/-- Flattened column names of a two-level header (lines 52-61):
`level1.where(level1.astype(str).str.strip() != "", level0)` — the
second-level label when it is nonempty after stripping, else the top-level
label. -/
def flattenCols (level0 level1 : List String) : List String :=
  List.zipWith (fun a b => if pyStrip b ≠ "" then b else a) level0 level1

/-- `pandas.Series.unique`: distinct values in order of first occurrence. -/
def uniqueFirstAux (seen : List String) : List String → List String
  | [] => []
  | a :: l => if a ∈ seen then uniqueFirstAux seen l else a :: uniqueFirstAux (a :: seen) l

def uniqueFirst (l : List String) : List String := uniqueFirstAux [] l

/-- `new_cols[duplicated].unique()` where
`duplicated = new_cols.duplicated(keep=False)` (lines 63-64): the distinct
values occurring at least twice, in order of first occurrence. -/
def dupNames (l : List String) : List String :=
  uniqueFirst (l.filter (fun v => 2 ≤ l.count v))

/-- Inner loop of lines 65-68 for one duplicated value `v`: the occurrences
of `v` are located in the current name list, the first is kept, and the
`k`-th subsequent one is renamed to `v_k`.  The counter `k` is the number of
occurrences of `v` already passed. -/
def renameFrom (v : String) : Nat → List String → List String
  | _, [] => []
  | k, s :: l =>
    if s = v then (if k = 0 then s else suffixName v k) :: renameFrom v (k + 1) l
    else s :: renameFrom v k l

def renameDups (v : String) (l : List String) : List String := renameFrom v 0 l

/-- Lines 63-68: the duplicate set is computed once from the original
flattened names; the renaming loop then runs over its values in first
occurrence order, each iteration locating occurrences in the current
(already partially renamed) name list. -/
def resolveCollisions (l : List String) : List String :=
  (dupNames l).foldl (fun acc v => renameDups v acc) l

/-- The full header-flattening step of the table normalizer: flatten the two
header levels, then resolve duplicate flattened names. -/
def flattenResolve (level0 level1 : List String) : List String :=
  resolveCollisions (flattenCols level0 level1)

/-! ### Properties of the decimal rendering -/

theorem string_ext {a b : String} (h : a.data = b.data) : a = b := by
  cases a with
  | mk la =>
    cases b with
    | mk lb =>
      simp only at h
      exact congrArg String.mk h

theorem natToRevDigits_digit : ∀ n, ∀ c ∈ natToRevDigits n, isPyDigit c := by
  intro n
  induction n using Nat.strong_induction_on with
  | _ n ih =>
    match n with
    | 0 => simp [natToRevDigits]
    | m + 1 =>
      rw [natToRevDigits]
      intro c hc
      rcases List.mem_cons.mp hc with h | h
      · subst h
        have h10 : (m + 1) % 10 < 10 := Nat.mod_lt _ (by norm_num)
        revert h10
        have : ∀ k, k < 10 → isPyDigit (Nat.digitChar k) := by decide
        exact this _
      · exact ih _ (Nat.div_lt_self (Nat.succ_pos m) (by norm_num)) c h

theorem natToRevDigits_ne_nil {n : Nat} (h : 1 ≤ n) : natToRevDigits n ≠ [] := by
  match n, h with
  | m + 1, _ => rw [natToRevDigits]; simp

/-- Value of a little-endian decimal digit list (left inverse used for
injectivity). -/
def revDigitsVal : List Char → Nat
  | [] => 0
  | c :: cs => (c.toNat - '0'.toNat) + 10 * revDigitsVal cs

theorem revDigitsVal_natToRevDigits : ∀ n, revDigitsVal (natToRevDigits n) = n := by
  intro n
  induction n using Nat.strong_induction_on with
  | _ n ih =>
    match n with
    | 0 => simp [natToRevDigits, revDigitsVal]
    | m + 1 =>
      rw [natToRevDigits]
      have h10 : (m + 1) % 10 < 10 := Nat.mod_lt _ (by norm_num)
      have hdiv : (m + 1) / 10 < m + 1 := Nat.div_lt_self (Nat.succ_pos m) (by norm_num)
      have hval : ∀ k, k < 10 → (Nat.digitChar k).toNat - '0'.toNat = k := by decide
      simp only [revDigitsVal, hval _ h10, ih _ hdiv]
      omega

theorem natToRevDigits_inj {m n : Nat} (h : natToRevDigits m = natToRevDigits n) :
    m = n := by
  have := congrArg revDigitsVal h
  simpa [revDigitsVal_natToRevDigits] using this

theorem natRepr_data_digit {n : Nat} (h : 1 ≤ n) :
    ∀ c ∈ (natRepr n).data, isPyDigit c := by
  intro c hc
  unfold natRepr at hc
  rw [if_neg (by omega)] at hc
  simp at hc
  exact natToRevDigits_digit n c hc

theorem natRepr_data_ne_nil {n : Nat} (h : 1 ≤ n) : (natRepr n).data ≠ [] := by
  unfold natRepr
  rw [if_neg (by omega)]
  simpa using natToRevDigits_ne_nil h

theorem natRepr_inj {m n : Nat} (hm : 1 ≤ m) (hn : 1 ≤ n)
    (h : natRepr m = natRepr n) : m = n := by
  unfold natRepr at h
  rw [if_neg (by omega), if_neg (by omega)] at h
  have hdata : (natToRevDigits m).reverse = (natToRevDigits n).reverse := by
    have := congrArg String.data h
    simpa using this
  exact natToRevDigits_inj (List.reverse_injective hdata)

/-! ### Suffixed names -/

/-- `w` is `v` followed by an underscore and a nonempty digit string.  The
names the collision loop generates all have this shape relative to their base
name. -/
def DigitSuffix (w v : String) : Prop :=
  ∃ t : List Char, t ≠ [] ∧ (∀ c ∈ t, isPyDigit c) ∧ w.data = v.data ++ '_' :: t

theorem suffixName_data (v : String) (k : Nat) :
    (suffixName v k).data = v.data ++ '_' :: (natRepr k).data := by
  simp [suffixName, String.data_append]

theorem digitSuffix_suffixName {v : String} {k : Nat} (hk : 1 ≤ k) :
    DigitSuffix (suffixName v k) v :=
  ⟨(natRepr k).data, natRepr_data_ne_nil hk, natRepr_data_digit hk,
    suffixName_data v k⟩

theorem digitSuffix_length {w v : String} (h : DigitSuffix w v) :
    v.length + 2 ≤ w.length := by
  obtain ⟨t, htne, _, hdata⟩ := h
  have hlen := congrArg List.length hdata
  simp at hlen
  have ht : 1 ≤ t.length := List.length_pos.mpr htne
  omega

theorem suffixName_inj_of_base {v : String} {j k : Nat} (hj : 1 ≤ j) (hk : 1 ≤ k)
    (h : suffixName v j = suffixName v k) : j = k := by
  have hdata := congrArg String.data h
  rw [suffixName_data, suffixName_data] at hdata
  have := List.append_cancel_left hdata
  have hrepr : (natRepr j).data = (natRepr k).data := by
    injection this
  exact natRepr_inj hj hk (string_ext hrepr)

theorem suffixName_ne_cross {v w : String} {j k : Nat} (hj : 1 ≤ j) (hk : 1 ≤ k)
    (hvw : v ≠ w) : suffixName v j ≠ suffixName w k := by
  intro h
  have hdata := congrArg String.data h
  rw [suffixName_data, suffixName_data] at hdata
  rcases List.append_eq_append_iff.mp hdata with ⟨u, hu1, hu2⟩ | ⟨u, hu1, hu2⟩
  · cases u with
    | nil =>
      refine hvw (string_ext ?_)
      simpa using hu1.symm
    | cons x u' =>
      rw [List.cons_append] at hu2
      have hdj : (natRepr j).data = u' ++ '_' :: (natRepr k).data :=
        (List.cons.injEq _ _ _ _ ▸ hu2).2
      have hm : ('_' : Char) ∈ (natRepr j).data := by rw [hdj]; simp
      have hdig := natRepr_data_digit hj _ hm
      exact absurd hdig (by decide)
  · cases u with
    | nil =>
      refine hvw (string_ext ?_)
      simpa using hu1
    | cons x u' =>
      rw [List.cons_append] at hu2
      have hdk : (natRepr k).data = u' ++ '_' :: (natRepr j).data :=
        (List.cons.injEq _ _ _ _ ▸ hu2).2
      have hm : ('_' : Char) ∈ (natRepr k).data := by rw [hdk]; simp
      have hdig := natRepr_data_digit hk _ hm
      exact absurd hdig (by decide)

/-! ### Characterization of the collision resolution -/

/-- State of the renaming loop after the duplicated values in `done` have
been processed: scanning `rest` with already-scanned prefix `seen`, an
occurrence of a name in `done` whose occurrence index (count in `seen`) is
positive carries the corresponding suffix; all other names are untouched. -/
def partialR (done : List String) : List String → List String → List String
  | _, [] => []
  | seen, s :: rest =>
    (if s ∈ done ∧ 1 ≤ seen.count s then suffixName s (seen.count s) else s) ::
      partialR done (seen ++ [s]) rest

/-- Final names as described by the specification: an occurrence of a name
that is duplicated in the original header and is not the first occurrence
receives the suffix `_k`, where `k` is its 0-based occurrence index. -/
def expectedGo (orig : List String) : List String → List String → List String
  | _, [] => []
  | seen, s :: rest =>
    (if 2 ≤ orig.count s ∧ 1 ≤ seen.count s then suffixName s (seen.count s) else s) ::
      expectedGo orig (seen ++ [s]) rest

def expectedResolve (l : List String) : List String := expectedGo l [] l

/-- Side condition under which the renaming loop is collision-free: no name
of the (flattened) header equals a duplicated name followed by an underscore
and a nonempty digit string.  Without it the generated suffixed names can
collide with pre-existing columns. -/
def NoSuffixCollision (l : List String) : Prop :=
  ∀ v ∈ l, 2 ≤ l.count v → ∀ w ∈ l, ¬ DigitSuffix w v

theorem mem_uniqueFirstAux {x : String} :
    ∀ {l seen : List String}, x ∈ uniqueFirstAux seen l ↔ x ∈ l ∧ x ∉ seen := by
  intro l
  induction l with
  | nil => intro seen; simp [uniqueFirstAux]
  | cons a l ih =>
    intro seen
    by_cases ha : a ∈ seen
    · rw [uniqueFirstAux, if_pos ha, ih]
      simp only [List.mem_cons]
      constructor
      · rintro ⟨h1, h2⟩; exact ⟨Or.inr h1, h2⟩
      · rintro ⟨h1 | h1, h2⟩
        · exact absurd (h1 ▸ ha) h2
        · exact ⟨h1, h2⟩
    · rw [uniqueFirstAux, if_neg ha]
      simp only [List.mem_cons, ih]
      constructor
      · rintro (rfl | ⟨h1, h2⟩)
        · exact ⟨Or.inl rfl, ha⟩
        · exact ⟨Or.inr h1, fun hx => h2 (Or.inr hx)⟩
      · rintro ⟨h1 | h1, h2⟩
        · exact Or.inl h1
        · by_cases hxa : x = a
          · exact Or.inl hxa
          · exact Or.inr ⟨h1, fun hx => hx.elim (fun hh => hxa hh) (fun hh => h2 hh)⟩

theorem nodup_uniqueFirstAux :
    ∀ {l seen : List String}, (uniqueFirstAux seen l).Nodup := by
  intro l
  induction l with
  | nil => intro seen; simp [uniqueFirstAux]
  | cons a l ih =>
    intro seen
    by_cases ha : a ∈ seen
    · rw [uniqueFirstAux, if_pos ha]; exact ih
    · rw [uniqueFirstAux, if_neg ha]
      refine List.nodup_cons.mpr ⟨fun hmem => ?_, ih⟩
      exact (mem_uniqueFirstAux.mp hmem).2 (List.mem_cons_self _ _)

theorem mem_dupNames {l : List String} {x : String} :
    x ∈ dupNames l ↔ x ∈ l ∧ 2 ≤ l.count x := by
  unfold dupNames uniqueFirst
  rw [mem_uniqueFirstAux]
  simp [List.mem_filter]

theorem nodup_dupNames {l : List String} : (dupNames l).Nodup :=
  nodup_uniqueFirstAux

theorem partialR_nil_done : ∀ (rest seen : List String), partialR [] seen rest = rest := by
  intro rest
  induction rest with
  | nil => intro seen; rfl
  | cons s rest' ih => intro seen; simp [partialR, ih]

theorem count_append_singleton_self (seen : List String) (s : String) :
    (seen ++ [s]).count s = seen.count s + 1 := by
  simp

theorem count_append_singleton_ne {s v : String} (h : s ≠ v) (seen : List String) :
    (seen ++ [s]).count v = seen.count v := by
  rw [List.count_append]
  have h0 : List.count v [s] = 0 := by
    rw [List.count_eq_zero]
    simpa using Ne.symm h
  rw [h0]
  rfl

/-- Step lemma: processing one more duplicated value `v` moves the loop state
from `done` to `done ++ [v]`, provided no original name collides with a
generated suffixed name. -/
theorem renameFrom_partialR {orig : List String} (hH : NoSuffixCollision orig)
    {done : List String} (hdone : ∀ w ∈ done, w ∈ orig ∧ 2 ≤ orig.count w)
    {v : String} (hv : v ∈ orig) (hvd : v ∉ done) :
    ∀ (rest seen : List String), (∀ s ∈ rest, s ∈ orig) →
      renameFrom v (seen.count v) (partialR done seen rest) =
        partialR (done ++ [v]) seen rest := by
  intro rest
  induction rest with
  | nil => intro seen _; simp [partialR, renameFrom]
  | cons s rest' ih =>
    intro seen hrest
    have hs : s ∈ orig := hrest s (List.mem_cons_self _ _)
    have hrest' : ∀ t ∈ rest', t ∈ orig := fun t ht => hrest t (List.mem_cons_of_mem _ ht)
    by_cases hsv : s = v
    · subst hsv
      have hcondL : ¬ (s ∈ done ∧ 1 ≤ seen.count s) := fun h => hvd h.1
      simp only [partialR, if_neg hcondL]
      rw [renameFrom, if_pos rfl]
      have hcount := count_append_singleton_self seen s
      have hmem : s ∈ done ++ [s] := by simp
      congr 1
      · by_cases h0 : seen.count s = 0
        · simp [h0]
        · have h1 : 1 ≤ seen.count s := Nat.one_le_iff_ne_zero.mpr h0
          simp [h0, h1, hmem]
      · rw [← hcount]
        exact ih (seen ++ [s]) hrest'
    · have hcount := count_append_singleton_ne hsv seen
      simp only [partialR]
      have hmem_iff : s ∈ done ++ [v] ↔ s ∈ done := by simp [hsv]
      have hcne : (if s ∈ done ∧ 1 ≤ seen.count s then suffixName s (seen.count s) else s) ≠ v := by
        by_cases hmem : s ∈ done ∧ 1 ≤ seen.count s
        · rw [if_pos hmem]
          intro heq
          have hsdup := hdone s hmem.1
          exact hH s hsdup.1 hsdup.2 v hv (heq ▸ digitSuffix_suffixName hmem.2)
        · rw [if_neg hmem]; exact hsv
      rw [renameFrom, if_neg hcne]
      rw [if_congr (iff_of_eq (congrArg (· ∧ 1 ≤ seen.count s) (propext hmem_iff))) rfl rfl]
      congr 1
      rw [← hcount]
      exact ih (seen ++ [s]) hrest'

theorem foldl_renameDups {orig : List String} (hH : NoSuffixCollision orig) :
    ∀ (rem done : List String), done ++ rem = dupNames orig →
      rem.foldl (fun acc v => renameDups v acc) (partialR done [] orig) =
        partialR (done ++ rem) [] orig := by
  intro rem
  induction rem with
  | nil => intro done h; simp
  | cons v rem' ih =>
    intro done h
    have hv_dup : v ∈ dupNames orig := by rw [← h]; simp
    have hv := mem_dupNames.mp hv_dup
    have hvd : v ∉ done := by
      intro hmem
      have hnd : (done ++ v :: rem').Nodup := h ▸ nodup_dupNames
      rcases List.nodup_append.mp hnd with ⟨_, _, hdisj⟩
      exact hdisj hmem (List.mem_cons_self _ _)
    have hdone : ∀ w ∈ done, w ∈ orig ∧ 2 ≤ orig.count w := fun w hw =>
      mem_dupNames.mp (by rw [← h]; exact List.mem_append_left _ hw)
    rw [List.foldl_cons]
    have hstep := renameFrom_partialR hH hdone hv.1 hvd orig [] (fun s hs => hs)
    have hone : renameDups v (partialR done [] orig) = partialR (done ++ [v]) [] orig := by
      unfold renameDups
      simpa using hstep
    rw [hone]
    have happ : (done ++ [v]) ++ rem' = dupNames orig := by simpa using h
    simpa using ih (done ++ [v]) happ

theorem partialR_eq_expectedGo {orig : List String} :
    ∀ (rest seen : List String), (∀ s ∈ rest, s ∈ orig) →
      partialR (dupNames orig) seen rest = expectedGo orig seen rest := by
  intro rest
  induction rest with
  | nil => intro seen _; rfl
  | cons s rest' ih =>
    intro seen hrest
    have hs : s ∈ orig := hrest s (List.mem_cons_self _ _)
    have hiff : (s ∈ dupNames orig ∧ 1 ≤ seen.count s) ↔
        (2 ≤ orig.count s ∧ 1 ≤ seen.count s) := by
      rw [mem_dupNames]
      constructor
      · rintro ⟨⟨_, h2⟩, h3⟩; exact ⟨h2, h3⟩
      · rintro ⟨h2, h3⟩; exact ⟨⟨hs, h2⟩, h3⟩
    simp only [partialR, expectedGo]
    rw [if_congr hiff rfl rfl]
    congr 1
    exact ih (seen ++ [s]) (fun t ht => hrest t (List.mem_cons_of_mem _ ht))

/-- The collision-resolution loop computes exactly the specification's
first-bare / `_k`-suffixed naming, under the no-pre-collision side
condition. -/
theorem resolveCollisions_eq_expected {l : List String} (hH : NoSuffixCollision l) :
    resolveCollisions l = expectedResolve l := by
  have hfold := foldl_renameDups hH (dupNames l) [] (by simp)
  rw [partialR_nil_done] at hfold
  unfold resolveCollisions
  rw [hfold]
  simpa using partialR_eq_expectedGo l [] (fun s hs => hs)

/-- Shape of every element of `expectedGo`: either a bare name of the scanned
suffix that is not a non-first duplicate occurrence, or a suffixed name whose
index is at least the number of occurrences already seen. -/
theorem mem_expectedGo {orig : List String} :
    ∀ (rest seen : List String) (e : String), e ∈ expectedGo orig seen rest →
      ∃ s', s' ∈ rest ∧
        ((e = s' ∧ (orig.count s' ≤ 1 ∨ seen.count s' = 0)) ∨
          (2 ≤ orig.count s' ∧ ∃ k, 1 ≤ k ∧ seen.count s' ≤ k ∧ e = suffixName s' k)) := by
  intro rest
  induction rest with
  | nil => intro seen e h; simp [expectedGo] at h
  | cons s rest' ih =>
    intro seen e h
    rw [expectedGo] at h
    rcases List.mem_cons.mp h with h | h
    · by_cases hc : 2 ≤ orig.count s ∧ 1 ≤ seen.count s
      · rw [if_pos hc] at h
        exact ⟨s, List.mem_cons_self _ _,
          Or.inr ⟨hc.1, seen.count s, hc.2, le_refl _, h⟩⟩
      · rw [if_neg hc] at h
        refine ⟨s, List.mem_cons_self _ _, Or.inl ⟨h, ?_⟩⟩
        by_cases h2 : 2 ≤ orig.count s
        · refine Or.inr ?_
          by_contra h0
          exact hc ⟨h2, Nat.one_le_iff_ne_zero.mpr h0⟩
        · exact Or.inl (by omega)
    · obtain ⟨s', hs', hcl⟩ := ih (seen ++ [s]) e h
      refine ⟨s', List.mem_cons_of_mem _ hs', ?_⟩
      have hmono : seen.count s' ≤ (seen ++ [s]).count s' := by
        rw [List.count_append]; omega
      rcases hcl with ⟨he, hor⟩ | ⟨hdup, k, hk1, hk2, he⟩
      · refine Or.inl ⟨he, ?_⟩
        rcases hor with h1 | h1
        · exact Or.inl h1
        · exact Or.inr (by omega)
      · exact Or.inr ⟨hdup, k, hk1, by omega, he⟩

/-- Under the no-pre-collision side condition, the predicted final names are
pairwise distinct. -/
theorem nodup_expectedGo {orig : List String} (hH : NoSuffixCollision orig) :
    ∀ (rest seen : List String), orig = seen ++ rest →
      (expectedGo orig seen rest).Nodup := by
  intro rest
  induction rest with
  | nil => intro seen _; simp [expectedGo]
  | cons s rest' ih =>
    intro seen horig
    have hsorig : s ∈ orig := by rw [horig]; simp
    rw [expectedGo]
    refine List.nodup_cons.mpr ⟨?_, ih (seen ++ [s]) (by rw [horig]; simp)⟩
    by_cases hc : 2 ≤ orig.count s ∧ 1 ≤ seen.count s
    · rw [if_pos hc]
      intro hmem
      obtain ⟨s', hs', hcl⟩ := mem_expectedGo rest' (seen ++ [s]) _ hmem
      have hs'orig : s' ∈ orig := by
        rw [horig]
        exact List.mem_append_right _ (List.mem_cons_of_mem _ hs')
      rcases hcl with ⟨he, _⟩ | ⟨hdup', k, hk1, hk2, he⟩
      · refine hH s hsorig hc.1 s' hs'orig ?_
        rw [← he]
        exact digitSuffix_suffixName hc.2
      · by_cases hss : s = s'
        · subst hss
          have hcnt := count_append_singleton_self seen s
          have hj := suffixName_inj_of_base hc.2 hk1 he
          omega
        · exact suffixName_ne_cross hc.2 hk1 hss he
    · rw [if_neg hc]
      intro hmem
      obtain ⟨s', hs', hcl⟩ := mem_expectedGo rest' (seen ++ [s]) _ hmem
      have hs'orig : s' ∈ orig := by
        rw [horig]
        exact List.mem_append_right _ (List.mem_cons_of_mem _ hs')
      rcases hcl with ⟨he, hor⟩ | ⟨hdup', k, hk1, hk2, he⟩
      · subst he
        rcases hor with h1 | h1
        · have h2 : 2 ≤ orig.count s := by
            rw [horig, List.count_append, List.count_cons]
            have hp : 0 < rest'.count s := List.count_pos_iff.mpr hs'
            simp only [beq_self_eq_true, if_pos]
            omega
          omega
        · have := count_append_singleton_self seen s
          omega
      · refine hH s' hs'orig hdup' s hsorig ?_
        rw [he]
        exact digitSuffix_suffixName hk1

/-- C1 (amended).  For a two-level header, flattening with collision
resolution assigns the bare name to the first occurrence of each repeated
flattened name and the suffixes `_1`, `_2`, … to the subsequent occurrences
in left-to-right order (`expectedResolve`), and the resulting names are
pairwise distinct — provided no flattened name equals a duplicated flattened
name followed by an underscore and a digit string (`NoSuffixCollision`).
Without that proviso uniqueness fails, because the loop only renames names
that were duplicated in the original header and never re-checks the
generated suffixed names against pre-existing ones (see the
counterexample). -/
theorem c1_header_flatten_unique (level0 level1 : List String)
    (hH : NoSuffixCollision (flattenCols level0 level1)) :
    flattenResolve level0 level1 = expectedResolve (flattenCols level0 level1) ∧
      (flattenResolve level0 level1).Nodup := by
  unfold flattenResolve
  refine ⟨resolveCollisions_eq_expected hH, ?_⟩
  rw [resolveCollisions_eq_expected hH]
  exact nodup_expectedGo hH (flattenCols level0 level1) [] rfl

/-- C1 counterexample.  A two-level header with second-level labels
`A, A, A_1` flattens to `A, A_1, A_1`: the renaming of the second `A`
collides with the pre-existing column `A_1`, which was not duplicated in the
original header and is therefore never renamed. -/
theorem c1_header_flatten_unique_counterexample :
    flattenResolve ["Position", "Position", "Position"] ["A", "A", "A_1"] =
        ["A", "A_1", "A_1"] ∧
      ¬ (flattenResolve ["Position", "Position", "Position"] ["A", "A", "A_1"]).Nodup := by
  have heval : flattenResolve ["Position", "Position", "Position"] ["A", "A", "A_1"] =
      ["A", "A_1", "A_1"] := by
    simp [flattenResolve, flattenCols, pyStrip, pyStripChars, trimTrailing, isPySpace,
      resolveCollisions, dupNames, uniqueFirst, uniqueFirstAux, renameDups, renameFrom,
      suffixName, natRepr, natToRevDigits, List.count, List.filter]
    decide
  refine ⟨heval, ?_⟩
  rw [heval]
  decide

/-- Witness for C1: a concrete two-level header (`Secretary` over
`Name, Name, Term`) satisfying the side condition, on which the theorem
applies. -/
theorem c1_header_flatten_unique_witness :
    flattenResolve ["Secretary", "Secretary", "Secretary"] ["Name", "Name", "Term"] =
        expectedResolve
          (flattenCols ["Secretary", "Secretary", "Secretary"] ["Name", "Name", "Term"]) ∧
      (flattenResolve ["Secretary", "Secretary", "Secretary"] ["Name", "Name", "Term"]).Nodup := by
  apply c1_header_flatten_unique
  have hfc : flattenCols ["Secretary", "Secretary", "Secretary"] ["Name", "Name", "Term"] =
      ["Name", "Name", "Term"] := by
    simp [flattenCols, pyStrip, pyStripChars, trimTrailing, isPySpace]
  rw [hfc]
  intro v hv _ w hw hds
  have hlen := digitSuffix_length hds
  have hv4 : v.length = 4 := by fin_cases hv <;> rfl
  have hw4 : w.length = 4 := by fin_cases hw <;> rfl
  omega

/-! ### Idempotence of the name cleaning (towards C9) -/

theorem stripTagsAux_nil : stripTagsAux [] = [] := by rw [stripTagsAux]

theorem stripTagsAux_cons_ne {c : Char} (hc : c ≠ '<') (cs : List Char) :
    stripTagsAux (c :: cs) = c :: stripTagsAux cs := by
  rw [stripTagsAux, if_neg hc]

theorem stripTagsAux_cons_match {cs a b : List Char} (h : splitAtGt cs = some (a, b))
    (ha : a ≠ []) : stripTagsAux ('<' :: cs) = stripTagsAux b := by
  rw [stripTagsAux, if_pos rfl]
  split
  · rename_i a' b' heq
    rw [h] at heq
    simp at heq
    obtain ⟨h1, h2⟩ := heq
    subst h1; subst h2
    rw [if_neg ha]
  · rename_i heq
    rw [h] at heq
    exact absurd heq (by simp)

theorem stripTagsAux_cons_empty {cs b : List Char} (h : splitAtGt cs = some ([], b)) :
    stripTagsAux ('<' :: cs) = '<' :: stripTagsAux cs := by
  rw [stripTagsAux, if_pos rfl]
  split
  · rename_i a' b' heq
    rw [h] at heq
    simp at heq
    obtain ⟨h1, h2⟩ := heq
    subst h1
    rw [if_pos rfl]
  · rfl

theorem stripTagsAux_cons_none {cs : List Char} (h : splitAtGt cs = none) :
    stripTagsAux ('<' :: cs) = '<' :: stripTagsAux cs := by
  rw [stripTagsAux, if_pos rfl]
  split
  · rename_i a' b' heq
    rw [h] at heq
    exact absurd heq (by simp)
  · rfl

theorem mem_stripTagsAux {x : Char} : ∀ {l : List Char}, x ∈ stripTagsAux l → x ∈ l := by
  intro l
  induction l using stripTagsAux.induct with
  | case1 => rw [stripTagsAux_nil]; exact fun h => h
  | case2 cs b h ih =>
    rw [stripTagsAux_cons_empty h]
    intro hm
    rcases List.mem_cons.mp hm with rfl | hm
    · simp
    · exact List.mem_cons_of_mem _ (ih hm)
  | case3 cs a b h ha ih =>
    rw [stripTagsAux_cons_match h ha]
    intro hm
    have hb : x ∈ cs := by
      rw [splitAtGt_append h]
      exact List.mem_append_right _ (List.mem_cons_of_mem _ (ih hm))
    exact List.mem_cons_of_mem _ hb
  | case4 cs h ih =>
    rw [stripTagsAux_cons_none h]
    intro hm
    rcases List.mem_cons.mp hm with rfl | hm
    · simp
    · exact List.mem_cons_of_mem _ (ih hm)
  | case5 c cs hc ih =>
    rw [stripTagsAux_cons_ne hc]
    intro hm
    rcases List.mem_cons.mp hm with rfl | hm
    · simp
    · exact List.mem_cons_of_mem _ (ih hm)

theorem splitAtGt_eq_none {l : List Char} (h : splitAtGt l = none) : '>' ∉ l := by
  induction l with
  | nil => simp
  | cons c cs ih =>
    rw [splitAtGt] at h
    by_cases hc : c = '>'
    · rw [if_pos hc] at h; simp at h
    · rw [if_neg hc] at h
      cases hs : splitAtGt cs with
      | none =>
        simp [ih hs]
        exact fun hh => hc hh.symm
      | some p => rw [hs] at h; cases p; simp at h

/-- Tag-free character lists: the fixpoints of the tag-stripping pass.  Every
`'<'` is either immediately followed by `'>'` or has no `'>'` after it. -/
inductive NoTag : List Char → Prop
  | nil : NoTag []
  | cons {c : Char} {l : List Char} : c ≠ '<' → NoTag l → NoTag (c :: l)
  | lt_gt {l : List Char} : NoTag l → NoTag ('<' :: '>' :: l)
  | lt_nogt {l : List Char} : '>' ∉ l → NoTag ('<' :: l)

theorem noTag_cons_inv {c : Char} {l : List Char} (h : NoTag (c :: l)) (hc : c ≠ '<') :
    NoTag l := by
  cases h with
  | cons _ h => exact h
  | lt_gt h => exact absurd rfl hc
  | lt_nogt h => exact absurd rfl hc

theorem noTag_lt_inv {l : List Char} (h : NoTag ('<' :: l)) :
    (∃ l', l = '>' :: l' ∧ NoTag l') ∨ '>' ∉ l := by
  cases h with
  | cons hc h => exact absurd rfl hc
  | lt_gt h => exact Or.inl ⟨_, rfl, h⟩
  | lt_nogt h => exact Or.inr h

theorem stripTagsAux_no_gt : ∀ {l : List Char}, '>' ∉ l → stripTagsAux l = l := by
  intro l
  induction l using stripTagsAux.induct with
  | case1 => intro _; exact stripTagsAux_nil
  | case2 cs b h ih =>
    intro hm
    exfalso
    refine hm (List.mem_cons_of_mem _ ?_)
    rw [splitAtGt_append h]
    simp
  | case3 cs a b h ha ih =>
    intro hm
    exfalso
    refine hm (List.mem_cons_of_mem _ ?_)
    rw [splitAtGt_append h]
    simp
  | case4 cs h ih =>
    intro hm
    rw [stripTagsAux_cons_none h, ih (fun hx => hm (List.mem_cons_of_mem _ hx))]
  | case5 c cs hc ih =>
    intro hm
    rw [stripTagsAux_cons_ne hc, ih (fun hx => hm (List.mem_cons_of_mem _ hx))]

theorem noTag_fix : ∀ {l : List Char}, NoTag l → stripTagsAux l = l := by
  intro l h
  induction h with
  | nil => exact stripTagsAux_nil
  | cons hc _ ih => rw [stripTagsAux_cons_ne hc, ih]
  | @lt_gt l0 _ ih =>
    have hsp : splitAtGt ('>' :: l0) = some ([], l0) := by rw [splitAtGt]; simp
    rw [stripTagsAux_cons_empty hsp, stripTagsAux_cons_ne (by decide), ih]
  | lt_nogt hno =>
    rw [stripTagsAux_cons_none (splitAtGt_none hno), stripTagsAux_no_gt hno]

theorem noTag_stripTagsAux : ∀ l : List Char, NoTag (stripTagsAux l) := by
  intro l
  induction l using stripTagsAux.induct with
  | case1 => rw [stripTagsAux_nil]; exact NoTag.nil
  | case2 cs b h ih =>
    have hcs : cs = '>' :: b := by simpa using splitAtGt_append h
    subst hcs
    rw [stripTagsAux_cons_empty h, stripTagsAux_cons_ne (by decide)]
    rw [stripTagsAux_cons_ne (by decide)] at ih
    exact NoTag.lt_gt (noTag_cons_inv ih (by decide))
  | case3 cs a b h ha ih =>
    rw [stripTagsAux_cons_match h ha]
    exact ih
  | case4 cs h ih =>
    rw [stripTagsAux_cons_none h]
    exact NoTag.lt_nogt (fun hm => splitAtGt_eq_none h (mem_stripTagsAux hm))
  | case5 c cs hc ih =>
    rw [stripTagsAux_cons_ne hc]
    exact NoTag.cons hc ih

theorem stripTagsAux_idem (l : List Char) :
    stripTagsAux (stripTagsAux l) = stripTagsAux l :=
  noTag_fix (noTag_stripTagsAux l)

/-- Whitespace-collapsed character lists: fixpoints of the collapsing pass
started outside a whitespace run. -/
def Collapsed (l : List Char) : Prop := collapseWsAux false l = l

/-- Whitespace-collapsed character lists that do not start with whitespace:
fixpoints of the pass started inside a whitespace run. -/
def CollapsedNS (l : List Char) : Prop := collapseWsAux true l = l

theorem collapseWsAux_cons_space_false {c : Char} (hsp : isPySpace c) (cs : List Char) :
    collapseWsAux false (c :: cs) = ' ' :: collapseWsAux true cs := by
  rw [collapseWsAux]
  simp [hsp]

theorem collapseWsAux_cons_space_true {c : Char} (hsp : isPySpace c) (cs : List Char) :
    collapseWsAux true (c :: cs) = collapseWsAux true cs := by
  rw [collapseWsAux]
  simp [hsp]

theorem collapseWsAux_cons_nonspace {c : Char} (hsp : ¬ isPySpace c) (b : Bool)
    (cs : List Char) : collapseWsAux b (c :: cs) = c :: collapseWsAux false cs := by
  rw [collapseWsAux]
  simp [hsp]

theorem length_collapseWsAux : ∀ (l : List Char) (b : Bool),
    (collapseWsAux b l).length ≤ l.length := by
  intro l
  induction l with
  | nil => intro b; rw [collapseWsAux]
  | cons c cs ih =>
    intro b
    by_cases hsp : isPySpace c
    · cases b
      · rw [collapseWsAux_cons_space_false hsp]
        simpa using ih true
      · rw [collapseWsAux_cons_space_true hsp]
        exact le_trans (ih true) (by simp)
    · rw [collapseWsAux_cons_nonspace hsp]
      simpa using ih false

theorem collapsedNS_head {c : Char} {cs : List Char} (h : CollapsedNS (c :: cs)) :
    ¬ isPySpace c ∧ Collapsed cs := by
  unfold CollapsedNS at h
  by_cases hsp : isPySpace c
  · exfalso
    rw [collapseWsAux_cons_space_true hsp] at h
    have hlen := congrArg List.length h
    have hle := length_collapseWsAux cs true
    simp at hlen
    omega
  · rw [collapseWsAux_cons_nonspace hsp] at h
    simp at h
    exact ⟨hsp, h⟩

theorem collapsed_head_space {c : Char} {cs : List Char} (h : Collapsed (c :: cs))
    (hsp : isPySpace c) : c = ' ' ∧ CollapsedNS cs := by
  unfold Collapsed at h
  rw [collapseWsAux_cons_space_false hsp] at h
  simp at h
  exact ⟨h.1.symm, h.2⟩

theorem collapsed_head_nonspace {c : Char} {cs : List Char} (h : Collapsed (c :: cs))
    (hsp : ¬ isPySpace c) : Collapsed cs := by
  unfold Collapsed at h
  rw [collapseWsAux_cons_nonspace hsp] at h
  simp at h
  exact h

theorem collapsed_of_collapsedNS : ∀ {l : List Char}, CollapsedNS l → Collapsed l := by
  intro l h
  cases l with
  | nil => rfl
  | cons c cs =>
    obtain ⟨hsp, hcs⟩ := collapsedNS_head h
    unfold Collapsed
    rw [collapseWsAux_cons_nonspace hsp, hcs]

theorem collapseWsAux_fixpoints : ∀ l : List Char,
    Collapsed (collapseWsAux false l) ∧ CollapsedNS (collapseWsAux true l) := by
  intro l
  induction l with
  | nil => exact ⟨rfl, rfl⟩
  | cons c cs ih =>
    obtain ⟨ihf, iht⟩ := ih
    by_cases hsp : isPySpace c
    · constructor
      · rw [collapseWsAux_cons_space_false hsp]
        unfold Collapsed
        rw [collapseWsAux_cons_space_false (by decide), iht]
      · rw [collapseWsAux_cons_space_true hsp]
        exact iht
    · constructor
      · rw [collapseWsAux_cons_nonspace hsp]
        unfold Collapsed
        rw [collapseWsAux_cons_nonspace hsp, ihf]
      · rw [collapseWsAux_cons_nonspace hsp]
        unfold CollapsedNS
        rw [collapseWsAux_cons_nonspace hsp, ihf]

theorem collapsed_collapseWs (l : List Char) : Collapsed (collapseWs l) :=
  (collapseWsAux_fixpoints l).1

theorem dropWhile_of_collapsedNS {l : List Char} (h : CollapsedNS l) :
    l.dropWhile isPySpace = l := by
  cases l with
  | nil => rfl
  | cons c cs =>
    rw [List.dropWhile_cons, if_neg]
    simpa using (collapsedNS_head h).1

theorem collapsedNS_dropWhile : ∀ {l : List Char}, Collapsed l →
    CollapsedNS (l.dropWhile isPySpace) := by
  intro l h
  induction l with
  | nil => exact rfl
  | cons c cs ih =>
    by_cases hsp : isPySpace c
    · obtain ⟨_, hcs⟩ := collapsed_head_space h hsp
      rw [List.dropWhile_cons, if_pos (by simpa using hsp)]
      rw [dropWhile_of_collapsedNS hcs]
      exact hcs
    · rw [List.dropWhile_cons, if_neg (by simpa using hsp)]
      unfold CollapsedNS
      rw [collapseWsAux_cons_nonspace hsp, collapsed_head_nonspace h hsp]

theorem trimTrailing_cons (c : Char) (cs : List Char) :
    trimTrailing (c :: cs) =
      if trimTrailing cs = [] then (if isPySpace c then [] else [c])
      else c :: trimTrailing cs := by
  rw [trimTrailing]

theorem trimTrailing_collapsed : ∀ l : List Char,
    (Collapsed l → Collapsed (trimTrailing l)) ∧
      (CollapsedNS l → CollapsedNS (trimTrailing l)) := by
  intro l
  induction l with
  | nil => exact ⟨fun _ => rfl, fun _ => rfl⟩
  | cons c cs ih =>
    rw [trimTrailing_cons]
    by_cases ht : trimTrailing cs = []
    · rw [if_pos ht]
      constructor
      · intro _
        by_cases hsp : isPySpace c
        · rw [if_pos hsp]; rfl
        · rw [if_neg hsp]
          unfold Collapsed
          rw [collapseWsAux_cons_nonspace hsp]; rfl
      · intro h
        have hsp := (collapsedNS_head h).1
        rw [if_neg hsp]
        unfold CollapsedNS
        rw [collapseWsAux_cons_nonspace hsp]; rfl
    · rw [if_neg ht]
      constructor
      · intro h
        by_cases hsp : isPySpace c
        · obtain ⟨hc, hcs⟩ := collapsed_head_space h hsp
          subst hc
          have hNS := (ih.2 hcs)
          unfold Collapsed
          rw [collapseWsAux_cons_space_false (by decide), hNS]
        · have hcs := collapsed_head_nonspace h hsp
          unfold Collapsed
          rw [collapseWsAux_cons_nonspace hsp, ih.1 hcs]
      · intro h
        obtain ⟨hsp, hcs⟩ := collapsedNS_head h
        unfold CollapsedNS
        rw [collapseWsAux_cons_nonspace hsp, ih.1 hcs]

theorem trimTrailing_idem : ∀ l : List Char, trimTrailing (trimTrailing l) = trimTrailing l := by
  intro l
  induction l with
  | nil => rfl
  | cons c cs ih =>
    rw [trimTrailing_cons]
    by_cases ht : trimTrailing cs = []
    · rw [if_pos ht]
      by_cases hsp : isPySpace c
      · rw [if_pos hsp]; rfl
      · rw [if_neg hsp, trimTrailing_cons]
        simp [hsp, show trimTrailing ([] : List Char) = [] from rfl]
    · rw [if_neg ht, trimTrailing_cons, ih, if_neg ht]

theorem mem_trimTrailing {x : Char} : ∀ {l : List Char}, x ∈ trimTrailing l → x ∈ l := by
  intro l
  induction l with
  | nil =>
    intro hm
    rw [show trimTrailing ([] : List Char) = [] from rfl] at hm
    exact hm
  | cons c cs ih =>
    rw [trimTrailing_cons]
    by_cases ht : trimTrailing cs = []
    · rw [if_pos ht]
      by_cases hsp : isPySpace c
      · rw [if_pos hsp]; simp
      · rw [if_neg hsp]
        intro hm
        simp at hm
        simp [hm]
    · rw [if_neg ht]
      intro hm
      rcases List.mem_cons.mp hm with rfl | hm
      · simp
      · exact List.mem_cons_of_mem _ (ih hm)

theorem mem_collapseWsAux {x : Char} : ∀ {l : List Char} {b : Bool},
    x ∈ collapseWsAux b l → x ∈ l ∨ x = ' ' := by
  intro l
  induction l with
  | nil => intro b h; rw [collapseWsAux] at h; simp at h
  | cons c cs ih =>
    intro b
    by_cases hsp : isPySpace c
    · cases b
      · rw [collapseWsAux_cons_space_false hsp]
        intro hm
        rcases List.mem_cons.mp hm with rfl | hm
        · exact Or.inr rfl
        · rcases ih hm with h | h
          · exact Or.inl (List.mem_cons_of_mem _ h)
          · exact Or.inr h
      · rw [collapseWsAux_cons_space_true hsp]
        intro hm
        rcases ih hm with h | h
        · exact Or.inl (List.mem_cons_of_mem _ h)
        · exact Or.inr h
    · rw [collapseWsAux_cons_nonspace hsp]
      intro hm
      rcases List.mem_cons.mp hm with rfl | hm
      · exact Or.inl (List.mem_cons_self _ _)
      · rcases ih hm with h | h
        · exact Or.inl (List.mem_cons_of_mem _ h)
        · exact Or.inr h

theorem isPySpace_ne_lt {c : Char} (hsp : isPySpace c) : c ≠ '<' := by
  intro hc
  subst hc
  exact absurd hsp (by decide)

theorem noTag_collapseWsAux : ∀ {l : List Char}, NoTag l →
    ∀ b : Bool, NoTag (collapseWsAux b l) := by
  intro l
  induction l with
  | nil => intro _ b; rw [collapseWsAux]; exact NoTag.nil
  | cons c cs ih =>
    intro h b
    by_cases hsp : isPySpace c
    · have hcs : NoTag cs := noTag_cons_inv h (isPySpace_ne_lt hsp)
      cases b
      · rw [collapseWsAux_cons_space_false hsp]
        exact NoTag.cons (by decide) (ih hcs true)
      · rw [collapseWsAux_cons_space_true hsp]
        exact ih hcs true
    · rw [collapseWsAux_cons_nonspace hsp]
      by_cases hc : c = '<'
      · subst hc
        rcases noTag_lt_inv h with ⟨l', rfl, hl'⟩ | hng
        · have h1 : NoTag (collapseWsAux false ('>' :: l')) :=
            ih (NoTag.cons (by decide) hl') false
          rw [collapseWsAux_cons_nonspace (by decide)] at h1 ⊢
          exact NoTag.lt_gt (noTag_cons_inv h1 (by decide))
        · refine NoTag.lt_nogt (fun hm => ?_)
          rcases mem_collapseWsAux hm with hx | hx
          · exact hng hx
          · exact absurd hx (by decide)
      · exact NoTag.cons hc (ih (noTag_cons_inv h hc) false)

theorem noTag_dropWhile : ∀ {l : List Char}, NoTag l →
    NoTag (l.dropWhile isPySpace) := by
  intro l
  induction l with
  | nil => intro h; exact h
  | cons c cs ih =>
    intro h
    by_cases hsp : isPySpace c
    · rw [List.dropWhile_cons, if_pos (by simpa using hsp)]
      exact ih (noTag_cons_inv h (isPySpace_ne_lt hsp))
    · rw [List.dropWhile_cons, if_neg (by simpa using hsp)]
      exact h

theorem noTag_trimTrailing : ∀ {l : List Char}, NoTag l → NoTag (trimTrailing l) := by
  intro l
  induction l with
  | nil => intro h; exact h
  | cons c cs ih =>
    intro h
    rw [trimTrailing_cons]
    by_cases hc : c = '<'
    · subst hc
      rcases noTag_lt_inv h with ⟨l', rfl, hl'⟩ | hng
      · have hne : trimTrailing ('>' :: l') ≠ [] := by
          rw [trimTrailing_cons]
          by_cases ht' : trimTrailing l' = []
          · rw [if_pos ht']; simp [isPySpace]
          · rw [if_neg ht']; simp
        rw [if_neg hne]
        have hNTt : NoTag (trimTrailing ('>' :: l')) := ih (NoTag.cons (by decide) hl')
        rw [trimTrailing_cons] at hNTt ⊢
        by_cases ht' : trimTrailing l' = []
        · rw [if_pos ht'] at hNTt ⊢
          exact NoTag.lt_gt NoTag.nil
        · rw [if_neg ht'] at hNTt ⊢
          exact NoTag.lt_gt (noTag_cons_inv hNTt (by decide))
      · by_cases ht : trimTrailing cs = []
        · rw [if_pos ht, if_neg (by decide)]
          exact NoTag.lt_nogt (by simp)
        · rw [if_neg ht]
          exact NoTag.lt_nogt (fun hm => hng (mem_trimTrailing hm))
    · have hcs : NoTag cs := noTag_cons_inv h hc
      by_cases ht : trimTrailing cs = []
      · rw [if_pos ht]
        by_cases hsp : isPySpace c
        · rw [if_pos hsp]; exact NoTag.nil
        · rw [if_neg hsp]; exact NoTag.cons hc NoTag.nil
      · rw [if_neg ht]
        exact NoTag.cons hc (ih hcs)

theorem cleanNameChars_idem (l : List Char) :
    cleanNameChars (cleanNameChars l) = cleanNameChars l := by
  unfold cleanNameChars pyStripChars collapseWs
  have hNT : NoTag (trimTrailing ((collapseWsAux false (stripTagsAux l)).dropWhile isPySpace)) :=
    noTag_trimTrailing (noTag_dropWhile (noTag_collapseWsAux (noTag_stripTagsAux l) false))
  have hNS : CollapsedNS (trimTrailing ((collapseWsAux false (stripTagsAux l)).dropWhile isPySpace)) :=
    (trimTrailing_collapsed _).2 (collapsedNS_dropWhile (collapseWsAux_fixpoints (stripTagsAux l)).1)
  rw [noTag_fix hNT, collapsed_of_collapsedNS hNS, dropWhile_of_collapsedNS hNS,
    trimTrailing_idem]

/-- C9.  Name cleaning — strip HTML tag markup `<...>`, collapse whitespace
runs to single spaces, trim both ends — is idempotent: cleaning an
already-cleaned value yields the same value. -/
theorem c9_cleanName_idempotent (s : String) : cleanName (cleanName s) = cleanName s := by
  unfold cleanName
  exact congrArg String.mk (cleanNameChars_idem s.data)

/-! ## Table model -/

/-- A cell of a table: pandas object cells are strings, `NaN`/`NaT`/`pd.NA`
is `na`; derived columns hold integers, booleans, or calendar dates. -/
inductive Cell
  | na
  | str (s : String)
  | nat (n : Nat)
  | bool (b : Bool)
  | date (y m d : Nat)
deriving DecidableEq

/-- A dataframe: named columns, and rows of cells aligned positionally with
`cols`. -/
structure Df where
  cols : List String
  rows : List (List Cell)
deriving DecidableEq

/-- `df.rows` are all aligned with `df.cols`. -/
def Df.Aligned (df : Df) : Prop :=
  ∀ row ∈ df.rows, row.length = df.cols.length

/-- Value of an aligned row in the column named `c` (first column of that
name), `na` when the column is absent. -/
def colVal : List String → List Cell → String → Cell
  | [], _, _ => Cell.na
  | _ :: _, [], _ => Cell.na
  | cn :: cols, v :: vs, c => if cn = c then v else colVal cols vs c

/-- Pandas column assignment `df[name] = f(row)`: overwrite every column
named `name`, or append a new column at the end when absent. -/
def setColF (df : Df) (name : String) (f : List Cell → Cell) : Df :=
  if name ∈ df.cols then
    { cols := df.cols,
      rows := df.rows.map (fun row =>
        List.zipWith (fun cn v => if cn = name then f row else v) df.cols row) }
  else
    { cols := df.cols ++ [name], rows := df.rows.map (fun row => row ++ [f row]) }

/-- Column selection / reindexing `df[names]` (by name; `na` for a name the
frame does not have). -/
def selectCols (df : Df) (names : List String) : Df :=
  { cols := names, rows := df.rows.map (fun row => names.map (colVal df.cols row)) }

/-- Line 105: `final_df.replace(["", "N/A"], pd.NA)` on one cell. -/
def replaceCellNa (c : Cell) : Cell :=
  match c with
  | Cell.str s => if s = "" ∨ s = "N/A" then Cell.na else Cell.str s
  | c => c

/-- Line 105 on the whole frame. -/
def replaceNaTokens (df : Df) : Df :=
  { cols := df.cols, rows := df.rows.map (fun row => row.map replaceCellNa) }

/-! ## Text scanners for the derivation regexes -/

/-- Numeric value of a digit character. -/
def digitVal (c : Char) : Nat := c.toNat - '0'.toNat

/-- Match `\d{4}` at the start: four ASCII digits, returning their value and
the rest. -/
def takeDigits4 : List Char → Option (Nat × List Char)
  | c1 :: c2 :: c3 :: c4 :: rest =>
    if isPyDigit c1 && isPyDigit c2 && isPyDigit c3 && isPyDigit c4 then
      some (((digitVal c1 * 10 + digitVal c2) * 10 + digitVal c3) * 10 + digitVal c4, rest)
    else none
  | _ => none

/-- The separators of the tenure pattern: en dash, em dash, hyphen. -/
def isDashSep (c : Char) : Bool := c = '–' || c = '—' || c = '-'

/-- The optional tail `\s*[–—-]\s*(?:present|(\d{4}))` of the tenure pattern
(line 138) at the given position: `some none` when it matches via the
literal `present`, `some (some y)` when it matches a second year `y`,
`none` when it does not match. -/
def tenureTail (l : List Char) : Option (Option Nat) :=
  match l.dropWhile isPySpace with
  | c :: rest =>
    if isDashSep c then
      let l2 := rest.dropWhile isPySpace
      if "present".data.isPrefixOf l2 then some none
      else
        match takeDigits4 l2 with
        | some (y2, _) => some (some y2)
        | none => none
    else none
  | [] => none

/-- `Series.str.extract` of `(\d{4})(?:\s*[–—-]\s*(?:present|(\d{4})))?`
(line 138-139): leftmost `re.search`; at each position try `\d{4}`, then the
optional range tail. -/
def findTenure : List Char → Option (Nat × Option Nat)
  | [] => none
  | c :: rest =>
    match takeDigits4 (c :: rest) with
    | some (y1, after) =>
      match tenureTail after with
      | some y2 => some (y1, y2)
      | none => some (y1, none)
    | none => findTenure rest

def toLowerChars (l : List Char) : List Char := l.map Char.toLower

/-- Substring test: `pat` occurs contiguously in the list. -/
def hasSubstr (pat : List Char) : List Char → Bool
  | [] => pat.isEmpty
  | c :: rest => pat.isPrefixOf (c :: rest) || hasSubstr pat rest

/-- Lines 146-148: `str.contains("present", case=False, na=False)` on one
cell — `false` for absent or non-string cells. -/
def containsPresent (c : Cell) : Bool :=
  match c with
  | Cell.str s => hasSubstr "present".data (toLowerChars s.data)
  | _ => false

/-- Lines 136-148 on one `Years` cell: the derived
(`Start year`, `End year`, `Current`) triple.  Non-string cells yield no
match (pandas `.str` gives `NaN` there) and `Current = false`. -/
def deriveTenure (c : Cell) : Cell × Cell × Cell :=
  match c with
  | Cell.str s =>
    match findTenure s.data with
    | some (y1, some y2) => (Cell.nat y1, Cell.nat y2, Cell.bool (containsPresent (Cell.str s)))
    | some (y1, none) => (Cell.nat y1, Cell.na, Cell.bool (containsPresent (Cell.str s)))
    | none => (Cell.na, Cell.na, Cell.bool (containsPresent (Cell.str s)))
  | c' => (Cell.na, Cell.na, Cell.bool (containsPresent c'))

/-- Line 112: `dob.str.extract(r"(.*?)\s*\(", expand=False).fillna(dob)` on
one value — the prefix before the first `'('` with the whitespace run
adjacent to the `'('` removed, or the whole value when no `'('` occurs. -/
def beforeParen (l : List Char) : List Char :=
  if '(' ∈ l then trimTrailing (l.takeWhile (fun c => c ≠ '(')) else l

def monthNames : List (String × Nat) :=
  [("January", 1), ("February", 2), ("March", 3), ("April", 4), ("May", 5), ("June", 6),
    ("July", 7), ("August", 8), ("September", 9), ("October", 10), ("November", 11),
    ("December", 12)]

def isLeapYear (y : Nat) : Bool := (y % 4 = 0 && y % 100 ≠ 0) || y % 400 = 0

def daysInMonth (m y : Nat) : Nat :=
  if m = 2 then (if isLeapYear y then 29 else 28)
  else if m = 4 || m = 6 || m = 9 || m = 11 then 30
  else 31

/-- Digits-run value (big-endian). -/
def digitsVal (l : List Char) : Nat := l.foldl (fun acc c => acc * 10 + digitVal c) 0

/-- Modelled from the library call `pandas.to_datetime(_, errors="coerce")`
(line 114), restricted to the `"<MonthName> <day>, <year>"` format the
scraped pages use: anything else fails to `NaT` (`none`), as the claims'
example `"c. 1950"` does.  The real parser accepts more formats; the claims
exercise only this one and unparseable text. -/
def parseUsDate (l : List Char) : Option (Nat × Nat × Nat) :=
  let mon := l.takeWhile Char.isAlpha
  let r1 := l.dropWhile Char.isAlpha
  match (monthNames.filter (fun p => p.1.data = mon)).headD ("", 0) with
  | (_, 0) => none
  | (_, m) =>
    if r1.takeWhile isPySpace = [] then none
    else
      let r2 := r1.dropWhile isPySpace
      let dayDigits := r2.takeWhile isPyDigit
      let r3 := r2.dropWhile isPyDigit
      if dayDigits = [] || 2 < dayDigits.length then none
      else
        match r3.dropWhile isPySpace with
        | ',' :: r4 =>
          let r5 := r4.dropWhile isPySpace
          let yearDigits := r5.takeWhile isPyDigit
          let r6 := r5.dropWhile isPyDigit
          if yearDigits.length = 4 && r6.dropWhile isPySpace = [] then
            let d := digitsVal dayDigits
            let y := digitsVal yearDigits
            if 1 ≤ d && d ≤ daysInMonth m y then some (y, m, d) else none
          else none
        | _ => none

/-- Line 124: fallback `str.extract(r"(\d{4})")` — leftmost run of four
digits. -/
def findFourDigits : List Char → Option Nat
  | [] => none
  | c :: rest =>
    match takeDigits4 (c :: rest) with
    | some (v, _) => some v
    | none => findFourDigits rest

/-- Match one of the literal alternatives `age`, `Age`, `AGE` at the start,
returning the rest. -/
def matchAgeTok (l : List Char) : Option (List Char) :=
  if "age".data.isPrefixOf l then some (l.drop 3)
  else if "Age".data.isPrefixOf l then some (l.drop 3)
  else if "AGE".data.isPrefixOf l then some (l.drop 3)
  else none

/-- Line 130: `str.extract(r"(?:age|Age|AGE)\s*(\d+)")` — leftmost
occurrence of one of the three literal casings followed by optional
whitespace and a nonempty digit run. -/
def findAge : List Char → Option Nat
  | [] => none
  | c :: rest =>
    match matchAgeTok (c :: rest) with
    | some after =>
      let ds := (after.dropWhile isPySpace).takeWhile isPyDigit
      if ds = [] then findAge rest else some (digitsVal ds)
    | none => findAge rest

/-- Lines 108-133 on one `Date of birth` cell: the derived
(`Birth Date`, `Birth Year`, `Age`) triple.  `Birth Year` falls back to the
first four-digit run of the original text when the date parse fails. -/
def deriveBirth (c : Cell) : Cell × Cell × Cell :=
  match c with
  | Cell.str s =>
    match parseUsDate (beforeParen s.data) with
    | some (y, m, d) =>
      (Cell.date y m d, Cell.nat y,
        match findAge s.data with | some n => Cell.nat n | none => Cell.na)
    | none =>
      (Cell.na,
        (match findFourDigits s.data with | some y => Cell.nat y | none => Cell.na),
        match findAge s.data with | some n => Cell.nat n | none => Cell.na)
  | _ => (Cell.na, Cell.na, Cell.na)

/-- Character class `[A-Za-z\s]` of the state pattern. -/
def isStateChar (c : Char) : Bool :=
  (('A' ≤ c && c ≤ 'Z') || ('a' ≤ c && c ≤ 'z')) || isPySpace c

/-- Case-insensitive literal match of `tok` (itself lowercase) at the start,
returning the rest. -/
def matchKeywordCI (tok : List Char) (l : List Char) : Option (List Char) :=
  if toLowerChars (l.take tok.length) = tok && tok.length ≤ l.length then
    some (l.drop tok.length)
  else none

/-- `\s+` then the captured `([A-Za-z\s]+)` of the state pattern: at least
one whitespace character, then a maximal nonempty run of letters and
whitespace; with only whitespace available, backtracking leaves the last
whitespace character to the capture. -/
def captureStateRun (l : List Char) : Option (List Char) :=
  let sp := l.takeWhile isPySpace
  let rest := l.dropWhile isPySpace
  let r := rest.takeWhile isStateChar
  if sp.length = 0 then none
  else if r ≠ [] then some r
  else if 2 ≤ sp.length then some [' ']
  else none

/-- `(?:\s+from|\s+of)` then the captured run, after a role keyword. -/
def stateAfterKeyword (l : List Char) : Option (List Char) :=
  let trySep : List Char → Option (List Char) := fun tok =>
    if l.takeWhile isPySpace = [] then none
    else matchKeywordCI tok (l.dropWhile isPySpace)
  match trySep "from".data with
  | some rest => captureStateRun rest
  | none =>
    match trySep "of".data with
    | some rest => captureStateRun rest
    | none => none

/-- One attempt of the state pattern
`(?:senator|representative|governor)(?:\s+from|\s+of)\s+([A-Za-z\s]+)`
(lines 153-158, `re.IGNORECASE`) at the start of the text. -/
def tryStateAt (l : List Char) : Option (List Char) :=
  match matchKeywordCI "senator".data l with
  | some after => stateAfterKeyword after
  | none =>
    match matchKeywordCI "representative".data l with
    | some after => stateAfterKeyword after
    | none =>
      match matchKeywordCI "governor".data l with
      | some after => stateAfterKeyword after
      | none => none

/-- Leftmost search of the state pattern. -/
def findState : List Char → Option (List Char)
  | [] => none
  | c :: rest =>
    match tryStateAt (c :: rest) with
    | some r => some r
    | none => findState rest

/-- Lines 151-158 on one `Background` cell. -/
def deriveState (c : Cell) : Cell :=
  match c with
  | Cell.str s =>
    match findState s.data with
    | some r => Cell.str (String.mk r)
    | none => Cell.na
  | _ => Cell.na

/-! ## Field-derivation pipeline (`create_cabinet_csv`, lines 102-195) -/

/-- Lines 108-133: add `Birth Date`, `Birth Year`, `Age` when a
`Date of birth` column exists (assignment order of the source).  This is
the success path; `dobStepE` below adds the uncaught `.str` raise of
line 112 on a non-object-dtype column. -/
def dobStep (df : Df) : Df :=
  if "Date of birth" ∈ df.cols then
    let df1 := setColF df "Birth Date"
      (fun row => (deriveBirth (colVal df.cols row "Date of birth")).1)
    let df2 := setColF df1 "Birth Year"
      (fun row => (deriveBirth (colVal df1.cols row "Date of birth")).2.1)
    setColF df2 "Age" (fun row => (deriveBirth (colVal df2.cols row "Date of birth")).2.2)
  else df

/-- Lines 136-148: add `Start year`, `End year`, `Current` when a `Years`
column exists.  Success path; `yearsStepE` adds the uncaught `.str` raise
of line 139 on a non-object-dtype column. -/
def yearsStep (df : Df) : Df :=
  if "Years" ∈ df.cols then
    let df1 := setColF df "Start year"
      (fun row => (deriveTenure (colVal df.cols row "Years")).1)
    let df2 := setColF df1 "End year"
      (fun row => (deriveTenure (colVal df1.cols row "Years")).2.1)
    setColF df2 "Current" (fun row => (deriveTenure (colVal df2.cols row "Years")).2.2)
  else df

/-- Lines 151-158: extract `State` from `Background` when no `State` column
exists.  Success path; `stateStepE` adds the uncaught `.str` raise of
line 156 on a non-object-dtype column. -/
def stateStep (df : Df) : Df :=
  if "State" ∉ df.cols ∧ "Background" ∈ df.cols then
    setColF df "State" (fun row => deriveState (colVal df.cols row "Background"))
  else df

/-- Line 161: `dropna(axis=1, how="all")` — drop the columns all of whose
values are absent (with no rows, every column is dropped). -/
def dropAllNaCols (df : Df) : Df :=
  selectCols df (df.cols.filter (fun c =>
    !(df.rows.all (fun row => colVal df.cols row c == Cell.na))))

/-- Lines 164-167: drop the redundant columns `Reference`, `Refs`,
`Notes`. -/
def dropRedundant (df : Df) : Df :=
  selectCols df (df.cols.filter (fun c =>
    !(c == "Reference" || c == "Refs" || c == "Notes")))

/-- Lines 170-179: the fixed priority list. -/
def priorityCols : List String :=
  ["Administration", "Position", "Name", "Age", "State", "Date of birth", "Birth Year",
    "Background"]

/-- Python string comparison: lexicographic on code points. -/
def pyListLe : List Char → List Char → Bool
  | [], _ => true
  | _ :: _, [] => false
  | a :: as, b :: bs => if a = b then pyListLe as bs else decide (a < b)

def pyStrLe (x y : String) : Bool := pyListLe x.data y.data

/-- `pandas.Index.intersection(other)` (default `sort=False`): elements of
`a` also in `b`, in the order of `a`. -/
def indexIntersection (a b : List String) : List String :=
  a.filter (fun c => c ∈ b)

/-- `pandas.Index.difference(other)` (default `sort=None`): the elements of
`a` not in `b`, SORTED ascending by string comparison — pandas sorts the
difference by default. -/
def indexDifference (a b : List String) : List String :=
  List.insertionSort (fun x y => pyStrLe x y) (a.filter (fun c => c ∉ b))

/-- Lines 169-186: reorder columns — the priority columns that are present,
in priority order, followed by `Index.difference`'s (sorted) remaining
columns. -/
def reorderColumns (df : Df) : Df :=
  let avail := indexIntersection df.cols priorityCols
  let remaining := indexDifference df.cols priorityCols
  let priorityOrdered := priorityCols.filter (fun c => c ∈ avail)
  selectCols df (priorityOrdered ++ remaining)

/-- `"0"`-padded decimal rendering. -/
def pad2 (n : Nat) : String := if n < 10 then "0" ++ natRepr n else natRepr n

def pad4 (n : Nat) : String :=
  if n < 10 then "000" ++ natRepr n
  else if n < 100 then "00" ++ natRepr n
  else if n < 1000 then "0" ++ natRepr n
  else natRepr n

/-- `strftime("%Y-%m-%d")`. -/
def formatIsoDate (y m d : Nat) : String := pad4 y ++ "-" ++ pad2 m ++ "-" ++ pad2 d

/-- Lines 189-190: format `Birth Date` as ISO text (`NaT` stays absent).
Success path; `birthDateFormatStepE` adds the uncaught `.dt` raise of
line 190 on a non-datetime column. -/
def birthDateFormatStep (df : Df) : Df :=
  if "Birth Date" ∈ df.cols then
    setColF df "Birth Date" (fun row =>
      match colVal df.cols row "Birth Date" with
      | Cell.date y m d => Cell.str (formatIsoDate y m d)
      | _ => Cell.na)
  else df

/-- Lines 193-195: `Birth Year`/`Start year`/`End year` are converted from
float to nullable `Int64`.  In this model year cells already are integers
(`Cell.nat`) or `na`, so the conversion changes no value. -/
def int64Step (df : Df) : Df := df

/-! ## Table normalizer (`create_cabinet_csv`, lines 35-95) -/

/-- One raw table delivered by the fetch collaborator (`pd.read_html`):
`twoLevel` records whether its header is a two-level `MultiIndex` (in which
case `level0`/`level1` are the two label rows). -/
structure RawTable where
  twoLevel : Bool
  level0 : List String
  level1 : List String
  rows : List (List Cell)
deriving DecidableEq

/-- Line 73-74: a flattened name is dropped when it contains `Unnamed`
anywhere or matches `^$` (the empty string, or a lone newline under
Python's `$`-before-trailing-newline rule). -/
def unnamedLike (c : String) : Bool :=
  hasSubstr "Unnamed".data c.data || c == "" || c == "\n"

def isStrCell : Cell → Bool
  | Cell.str _ => true
  | _ => false

/-- Lines 86-90 on one `Name` cell of an object-dtype column: strings are
cleaned; non-string elements become `NaN` under pandas `.str` methods. -/
def cleanNameCell (c : Cell) : Cell :=
  match c with
  | Cell.str s => Cell.str (cleanName s)
  | _ => Cell.na

/-- Lines 48-70: the table with its flattened, collision-resolved column
names. -/
def tableFrame (t : RawTable) : Df :=
  { cols := flattenResolve t.level0 t.level1, rows := t.rows }

/-- Lines 73-74: drop unnamed columns. -/
def dropUnnamedCols (df : Df) : Df :=
  selectCols df (df.cols.filter (fun c => !(unnamedLike c)))

/-- Lines 81-83: keep the rows whose `Name` is neither absent nor the
literal header token `"Name"` (only when a `Name` column exists).  The
filter runs BEFORE any cleaning. -/
def filterNameRows (df : Df) : Df :=
  if "Name" ∈ df.cols then
    { cols := df.cols,
      rows := df.rows.filter (fun row =>
        !(colVal df.cols row "Name" == Cell.na) &&
          !(colVal df.cols row "Name" == Cell.str "Name")) }
  else df

/-- Lines 86-90: clean the `Name` values when the column exists and is of
object dtype (it holds at least one string). -/
def cleanNameStep (df : Df) : Df :=
  if "Name" ∈ df.cols ∧ df.rows.any (fun row => isStrCell (colVal df.cols row "Name"))
  then setColF df "Name" (fun row => cleanNameCell (colVal df.cols row "Name"))
  else df

/-- Lines 38-92 for one table.  `Except.error` models a Python exception
caught by the `except` clause of line 94 (raised here by
`df.columns[0][0]` on a table with no columns); `Except.ok none` models the
explicit skip (lines 40-42) of tables without a two-level header. -/
def processTableE (administration : String) (t : RawTable) : Except String (Option Df) :=
  if ¬ t.twoLevel then Except.ok none
  else if t.level0 = [] then Except.error "IndexError: index 0 is out of bounds"
  else
    let position := t.level0.headD ""
    let df1 := dropUnnamedCols (tableFrame t)
    let df2 := setColF df1 "Position" (fun _ => Cell.str position)
    let df3 := setColF df2 "Administration" (fun _ => Cell.str administration)
    Except.ok (some (cleanNameStep (filterNameRows df3)))

/-! ## Concatenation and the drivers -/

/-- Column schema of `pd.concat`: union of the input schemas in order of
first appearance (`sort=False`). -/
def unionCols (dfs : List Df) : List String :=
  dfs.foldl (fun acc d => acc ++ d.cols.filter (fun c => c ∉ acc)) []

/-- `pd.concat(dfs, ignore_index=True, sort=False)` (lines 102 and 243):
rows in order, reindexed to the union schema with `NaN` for the columns a
row's frame does not have. -/
def concatUnion (dfs : List Df) : Df :=
  { cols := unionCols dfs,
    rows := dfs.flatMap (fun d => d.rows.map (fun row => (unionCols dfs).map (colVal d.cols row))) }

/-- Lines 35-95: the frames contributed by the tables — an erroring table
(caught at line 94) and a skipped table contribute nothing. -/
def processedTables (administration : String) (tables : List RawTable) : List Df :=
  tables.filterMap (fun t =>
    match processTableE administration t with
    | Except.ok (some df) => some df
    | Except.ok none => none
    | Except.error _ => none)

/-- Lines 105-195 on the concatenated frame: normalize nulls, derive
fields, prune and reorder columns, format for serialization. -/
def derivePipeline (df : Df) : Df :=
  int64Step (birthDateFormatStep (reorderColumns (dropRedundant (dropAllNaCols
    (stateStep (yearsStep (dobStep (replaceNaTokens df))))))))

/-- `create_cabinet_csv` after the fetch (lines 35-195): process each table
catching per-table exceptions, return an empty frame when no table was
processed (lines 98-100), otherwise concatenate and derive.  This is the
raise-free result; `createCabinetE` below also models the derivation
stage's uncaught `AttributeError` raises and agrees with this function on
every input that does not raise (`createCabinetE_ok`). -/
def createCabinet (administration : String) (tables : List RawTable) : Df :=
  if (processedTables administration tables).isEmpty then { cols := [], rows := [] }
  else derivePipeline (concatUnion (processedTables administration tables))

/-- `combine_cabinets` (lines 208-243): read each file through the storage
collaborator `store`, skip unreadable ones, return an empty frame when none
was read, else concatenate on the union of schemas. -/
def combineCabinets (store : String → Except String Df) (files : List String) : Df :=
  let dfs := files.filterMap (fun f =>
    match store f with
    | Except.ok df => some df
    | Except.error _ => none)
  if dfs.isEmpty then { cols := [], rows := [] }
  else concatUnion dfs

/-! ### The derivation stage's uncaught raises

The `try` of lines 38-95 covers only the per-table loop.  The derivation
stage (lines 105-195) runs unprotected, and its `.str` accessor calls
(lines 112, 130, 139, 146, 156) raise `AttributeError` when the column is
not of object dtype, as does `.dt.strftime` (line 190) on a non-datetime
`Birth Date` column.  The fallible variants below add exactly these raise
points to the total steps. -/

/-- Object dtype of a column of the concatenated frame (line 102): the
column holds at least one string value.  `replace` (line 105) inserts `NA`
without changing the dtype, so the flag is read off the frame BEFORE the
null normalization.  A `.str` accessor on a non-object column raises. -/
def strDtype (df : Df) (c : String) : Bool :=
  df.rows.any (fun row => isStrCell (colVal df.cols row c))

def isDateCell : Cell → Bool
  | Cell.date _ _ _ => true
  | _ => false

def isDateLikeCell : Cell → Bool
  | Cell.date _ _ _ => true
  | Cell.na => true
  | _ => false

/-- Datetime64 dtype: the column was produced by the `pd.to_datetime`
assignment of line 114 — every value a date or `NaT`, at least one a date
(an all-`NaT` column is deleted by line 161 before line 190 reads it).
`.dt` on any other column raises. -/
def dtDtype (df : Df) (c : String) : Bool :=
  df.rows.all (fun row => isDateLikeCell (colVal df.cols row c)) &&
    df.rows.any (fun row => isDateCell (colVal df.cols row c))

/-- Lines 108-133 with the raise of line 112: `hasStr` is the object-dtype
flag of the `Date of birth` column (the later `.str` of lines 124 and 130
and the `.dt` of line 117 cannot raise once line 112 did not). -/
def dobStepE (hasStr : Bool) (df : Df) : Except String Df :=
  if "Date of birth" ∈ df.cols then
    if hasStr then Except.ok (dobStep df)
    else Except.error "AttributeError: Can only use .str accessor with string values!"
  else Except.ok df

/-- Lines 136-148 with the raise of line 139 (line 146 reads the same
column): `hasStr` is the object-dtype flag of the `Years` column. -/
def yearsStepE (hasStr : Bool) (df : Df) : Except String Df :=
  if "Years" ∈ df.cols then
    if hasStr then Except.ok (yearsStep df)
    else Except.error "AttributeError: Can only use .str accessor with string values!"
  else Except.ok df

/-- Lines 151-158 with the raise of line 156: `hasStr` is the object-dtype
flag of the `Background` column. -/
def stateStepE (hasStr : Bool) (df : Df) : Except String Df :=
  if "State" ∉ df.cols ∧ "Background" ∈ df.cols then
    if hasStr then Except.ok (stateStep df)
    else Except.error "AttributeError: Can only use .str accessor with string values!"
  else Except.ok df

/-- Lines 189-190 with the raise of line 190: a `Birth Date` column that
did not come from line 114 (a source table carried the literal column) is
not datetime64 and `.dt.strftime` raises. -/
def birthDateFormatStepE (df : Df) : Except String Df :=
  if "Birth Date" ∈ df.cols then
    if dtDtype df "Birth Date" then Except.ok (birthDateFormatStep df)
    else Except.error "AttributeError: Can only use .dt accessor with datetimelike values"
  else Except.ok df

/-- `create_cabinet_csv` after the fetch (lines 35-195) with the derivation
stage's uncaught raises: per-table exceptions are caught (inside
`processedTables`), but an `AttributeError` from lines 112, 139, 146, 156
or 190 escapes the function.  On the raise-free path the result is exactly
`createCabinet` (`createCabinetE_ok`). -/
def createCabinetE (administration : String) (tables : List RawTable) : Except String Df :=
  if (processedTables administration tables).isEmpty then Except.ok { cols := [], rows := [] }
  else
    match dobStepE
        (strDtype (concatUnion (processedTables administration tables)) "Date of birth")
        (replaceNaTokens (concatUnion (processedTables administration tables))) with
    | Except.error e => Except.error e
    | Except.ok d1 =>
      match yearsStepE
          (strDtype (concatUnion (processedTables administration tables)) "Years") d1 with
      | Except.error e => Except.error e
      | Except.ok d2 =>
        match stateStepE
            (strDtype (concatUnion (processedTables administration tables)) "Background")
            d2 with
        | Except.error e => Except.error e
        | Except.ok d3 =>
          match birthDateFormatStepE (reorderColumns (dropRedundant (dropAllNaCols d3))) with
          | Except.error e => Except.error e
          | Except.ok d4 => Except.ok (int64Step d4)

/-! ### Core dataframe lemmas -/

theorem colVal_absent : ∀ {cols : List String} (row : List Cell) {c : String},
    c ∉ cols → colVal cols row c = Cell.na := by
  intro cols
  induction cols with
  | nil => intro row c _; cases row <;> rfl
  | cons cn cols ih =>
    intro row c hc
    cases row with
    | nil => rfl
    | cons v vs =>
      rw [colVal, if_neg (fun h => hc (by rw [← h]; exact List.mem_cons_self _ _))]
      exact ih vs (fun h => hc (List.mem_cons_of_mem _ h))

/-- Reading a name from a row reindexed by name (`selectCols`, `concat`)
gives the original value for names in the target schema, `na` otherwise. -/
theorem colVal_map_reindex (cols : List String) (row : List Cell) :
    ∀ (names : List String) (c : String), c ∈ names →
      colVal names (names.map (colVal cols row)) c = colVal cols row c := by
  intro names
  induction names with
  | nil => intro c hc; simp at hc
  | cons n ns ih =>
    intro c hc
    rw [List.map_cons, colVal]
    by_cases hnc : n = c
    · rw [if_pos hnc, hnc]
    · rw [if_neg hnc]
      refine ih c ?_
      rcases List.mem_cons.mp hc with h | h
      · exact absurd h.symm hnc
      · exact h

/-- Overwriting the column `name` (the in-place branch of `setColF`) sets its
value. -/
theorem colVal_zipWith_set : ∀ (cols : List String) (row : List Cell) (name : String)
    (val : Cell), name ∈ cols → cols.length ≤ row.length →
    colVal cols (List.zipWith (fun cn v => if cn = name then val else v) cols row) name = val := by
  intro cols
  induction cols with
  | nil => intro row name val hmem _; simp at hmem
  | cons cn cols ih =>
    intro row name val hmem hlen
    cases row with
    | nil => simp at hlen
    | cons v vs =>
      rw [List.zipWith_cons_cons, colVal]
      by_cases hcn : cn = name
      · rw [if_pos hcn, if_pos hcn]
      · simp only [if_neg hcn]
        refine ih vs name val ?_ (by simpa using hlen)
        rcases List.mem_cons.mp hmem with h | h
        · exact absurd h.symm hcn
        · exact h

/-- Overwriting the column `name` leaves every other name unchanged. -/
theorem colVal_zipWith_other : ∀ (cols : List String) (row : List Cell) (name : String)
    (val : Cell) (c : String), c ≠ name →
    colVal cols (List.zipWith (fun cn v => if cn = name then val else v) cols row) c =
      colVal cols row c := by
  intro cols
  induction cols with
  | nil => intro row _ _ _ _; cases row <;> rfl
  | cons cn cols ih =>
    intro row name val c hc
    cases row with
    | nil => rfl
    | cons v vs =>
      rw [List.zipWith_cons_cons, colVal, colVal]
      by_cases hcnc : cn = c
      · rw [if_pos hcnc, if_pos hcnc, if_neg (fun h => hc (hcnc.symm.trans h))]
      · simp only [if_neg hcnc]
        exact ih vs name val c hc

/-- Appending a fresh column (the append branch of `setColF`): the new name
reads the new value, every other name is unchanged. -/
theorem colVal_append_fresh : ∀ (cols : List String) (row : List Cell) (name : String)
    (val : Cell), row.length = cols.length → name ∉ cols →
    colVal (cols ++ [name]) (row ++ [val]) name = val := by
  intro cols
  induction cols with
  | nil =>
    intro row name val hlen _
    rw [List.length_nil, List.length_eq_zero] at hlen
    subst hlen
    simp [colVal]
  | cons cn cols ih =>
    intro row name val hlen hmem
    cases row with
    | nil => simp at hlen
    | cons v vs =>
      rw [List.cons_append, List.cons_append, colVal,
        if_neg (fun h => hmem (by rw [← h]; exact List.mem_cons_self _ _))]
      exact ih vs name val (by simpa using hlen) (fun h => hmem (List.mem_cons_of_mem _ h))

theorem colVal_append_other : ∀ (cols : List String) (row : List Cell) (name : String)
    (val : Cell) (c : String), row.length = cols.length → c ≠ name →
    colVal (cols ++ [name]) (row ++ [val]) c = colVal cols row c := by
  intro cols
  induction cols with
  | nil =>
    intro row name val c hlen hc
    rw [List.length_nil, List.length_eq_zero] at hlen
    subst hlen
    simp [colVal, Ne.symm hc]
  | cons cn cols ih =>
    intro row name val c hlen hc
    cases row with
    | nil => simp at hlen
    | cons v vs =>
      rw [List.cons_append, List.cons_append, colVal, colVal]
      by_cases hcnc : cn = c
      · rw [if_pos hcnc, if_pos hcnc]
      · rw [if_neg hcnc, if_neg hcnc]
        exact ih vs name val c (by simpa using hlen) hc

/-! ### Substring and token-matching characterizations -/

theorem isPrefixOf_iff_exists : ∀ (p l : List Char), p.isPrefixOf l = true ↔ ∃ t, l = p ++ t := by
  intro p
  induction p with
  | nil => intro l; simp [List.isPrefixOf]
  | cons a p ih =>
    intro l
    cases l with
    | nil => simp [List.isPrefixOf]
    | cons b l' =>
      simp only [List.isPrefixOf, Bool.and_eq_true, beq_iff_eq, ih]
      constructor
      · rintro ⟨rfl, t, rfl⟩
        exact ⟨t, rfl⟩
      · rintro ⟨t, ht⟩
        rw [List.cons_append] at ht
        injection ht with h1 h2
        exact ⟨h1.symm, t, h2⟩

theorem hasSubstr_iff (pat : List Char) : ∀ l : List Char,
    hasSubstr pat l = true ↔ ∃ pre post, l = pre ++ pat ++ post := by
  intro l
  induction l with
  | nil =>
    rw [hasSubstr]
    simp only [List.isEmpty_iff]
    constructor
    · rintro rfl
      exact ⟨[], [], rfl⟩
    · rintro ⟨pre, post, h⟩
      have := congrArg List.length h
      simp at this
      rw [← List.length_eq_zero]
      omega
  | cons c rest ih =>
    rw [hasSubstr]
    simp only [Bool.or_eq_true, ih, isPrefixOf_iff_exists]
    constructor
    · rintro (⟨t, ht⟩ | ⟨pre, post, hp⟩)
      · exact ⟨[], t, by simpa using ht⟩
      · exact ⟨c :: pre, post, by simp [hp]⟩
    · rintro ⟨pre, post, hp⟩
      cases pre with
      | nil => exact Or.inl ⟨post, by simpa using hp⟩
      | cons x pre' =>
        simp only [List.cons_append] at hp
        injection hp with h1 h2
        exact Or.inr ⟨pre', post, by simpa using h2⟩

/-- C5.  Tenure derivation: `Years = "2021–present"` yields
`Start year = 2021`, `End year` absent, `Current = true`;
`Years = "2017–2019"` yields `Start year = 2017`, `End year = 2019`,
`Current = false`; `Current` is always a boolean (never absent), true
exactly when the field's text contains `present` case-insensitively. -/
theorem c5_tenure_derivation :
    deriveTenure (Cell.str "2021–present") = (Cell.nat 2021, Cell.na, Cell.bool true) ∧
    deriveTenure (Cell.str "2017–2019") = (Cell.nat 2017, Cell.nat 2019, Cell.bool false) ∧
    (∀ c : Cell, (deriveTenure c).2.2 = Cell.bool (containsPresent c)) ∧
    (∀ s : String, containsPresent (Cell.str s) = true ↔
      ∃ pre post, toLowerChars s.data = pre ++ "present".data ++ post) := by
  refine ⟨by decide, by decide, ?_, ?_⟩
  · intro c
    cases c with
    | str s =>
      rcases h : findTenure s.data with _ | ⟨y1, y2⟩
      · simp [deriveTenure, h]
      · cases y2 <;> simp [deriveTenure, h]
    | na => rfl
    | nat n => rfl
    | bool b => rfl
    | date y m d => rfl
  · intro s
    exact hasSubstr_iff _ _

/-- C6.  Date-of-birth derivation: the text before the first `(` is parsed
as a calendar date giving `Birth Date` and `Birth Year`; when the parse
fails, `Birth Date` is absent and `Birth Year` falls back to the first
four-digit run of the original text.  In particular
`"January 1, 1950 (age 74)"` gives `Birth Date 1950-01-01` (ISO-formatted),
`Birth Year 1950` and `Age 74`, and `"c. 1950"` gives an absent
`Birth Date` but `Birth Year 1950`. -/
theorem c6_birth_derivation :
    deriveBirth (Cell.str "January 1, 1950 (age 74)") =
        (Cell.date 1950 1 1, Cell.nat 1950, Cell.nat 74) ∧
    formatIsoDate 1950 1 1 = "1950-01-01" ∧
    deriveBirth (Cell.str "c. 1950") = (Cell.na, Cell.nat 1950, Cell.na) ∧
    (∀ (s : String) (y m d : Nat), parseUsDate (beforeParen s.data) = some (y, m, d) →
      (deriveBirth (Cell.str s)).1 = Cell.date y m d ∧
        (deriveBirth (Cell.str s)).2.1 = Cell.nat y) ∧
    (∀ s : String, parseUsDate (beforeParen s.data) = none →
      (deriveBirth (Cell.str s)).1 = Cell.na ∧
        (deriveBirth (Cell.str s)).2.1 =
          (match findFourDigits s.data with
            | some y => Cell.nat y
            | none => Cell.na)) := by
  refine ⟨by decide, ?_, by decide, ?_, ?_⟩
  · have h1 : natRepr 1950 = "1950" := by simp [natRepr, natToRevDigits]; decide
    have h2 : natRepr 1 = "1" := by simp [natRepr, natToRevDigits]; decide
    simp [formatIsoDate, pad4, pad2, h1, h2]
  · intro s y m d h
    simp [deriveBirth, h]
  · intro s h
    simp [deriveBirth, h]

/-! ### The age pattern (towards C7) -/

/-- The literal alternatives of the age regex — exactly three casings, not
arbitrary mixed case. -/
def AgeTokens : List (List Char) := ["age".data, "Age".data, "AGE".data]

/-- The pattern `(?:age|Age|AGE)\s*(\d+)` matches somewhere in the text:
one of the three literal tokens, then whitespace, then a nonempty digit
run. -/
def AgeMatchable (l : List Char) : Prop :=
  ∃ pre tok ws ds post, tok ∈ AgeTokens ∧ (∀ c ∈ ws, isPySpace c) ∧ ds ≠ [] ∧
    (∀ c ∈ ds, isPyDigit c) ∧ l = pre ++ (tok ++ (ws ++ (ds ++ post)))

theorem isPySpace_not_digit : ∀ {c : Char}, isPySpace c = true → isPyDigit c = false := by
  intro c h
  simp [isPySpace] at h
  rcases h with ((((rfl | rfl) | rfl) | rfl) | rfl) | rfl <;> decide

theorem not_space_of_digit {c : Char} (h : isPyDigit c = true) : isPySpace c = false := by
  cases hs : isPySpace c
  · rfl
  · rw [isPySpace_not_digit hs] at h
    exact absurd h (by decide)

theorem dropWhile_append_of_all {p : Char → Bool} :
    ∀ {ws : List Char}, (∀ c ∈ ws, p c) → ∀ X : List Char,
      (ws ++ X).dropWhile p = X.dropWhile p := by
  intro ws
  induction ws with
  | nil => intro _ X; rfl
  | cons w ws ih =>
    intro hall X
    rw [List.cons_append, List.dropWhile_cons, if_pos (hall w (List.mem_cons_self _ _))]
    exact ih (fun c hc => hall c (List.mem_cons_of_mem _ hc)) X

theorem matchAgeTok_spec {l r : List Char} (h : matchAgeTok l = some r) :
    ∃ tok ∈ AgeTokens, l = tok ++ r := by
  unfold matchAgeTok at h
  split_ifs at h with h1 h2 h3
  · obtain ⟨t, rfl⟩ := (isPrefixOf_iff_exists _ _).mp h1
    injection h with h'
    refine ⟨"age".data, by simp [AgeTokens], ?_⟩
    rw [← h']
    simp
  · obtain ⟨t, rfl⟩ := (isPrefixOf_iff_exists _ _).mp h2
    injection h with h'
    refine ⟨"Age".data, by simp [AgeTokens], ?_⟩
    rw [← h']
    simp
  · obtain ⟨t, rfl⟩ := (isPrefixOf_iff_exists _ _).mp h3
    injection h with h'
    refine ⟨"AGE".data, by simp [AgeTokens], ?_⟩
    rw [← h']
    simp

theorem matchAgeTok_complete {tok : List Char} (htok : tok ∈ AgeTokens) (r : List Char) :
    matchAgeTok (tok ++ r) = some r := by
  fin_cases htok
  · unfold matchAgeTok
    rw [if_pos ((isPrefixOf_iff_exists _ _).mpr ⟨r, rfl⟩)]
    simp
  · unfold matchAgeTok
    rw [if_neg, if_pos ((isPrefixOf_iff_exists _ _).mpr ⟨r, rfl⟩)]
    · simp
    · intro hpre
      obtain ⟨t, ht⟩ := (isPrefixOf_iff_exists _ _).mp hpre
      exact absurd (congrArg (fun l => l.take 1) ht) (by simp)
  · unfold matchAgeTok
    rw [if_neg, if_neg, if_pos ((isPrefixOf_iff_exists _ _).mpr ⟨r, rfl⟩)]
    · simp
    · intro hpre
      obtain ⟨t, ht⟩ := (isPrefixOf_iff_exists _ _).mp hpre
      exact absurd (congrArg (fun l => l.take 2) ht) (by simp)
    · intro hpre
      obtain ⟨t, ht⟩ := (isPrefixOf_iff_exists _ _).mp hpre
      exact absurd (congrArg (fun l => l.take 1) ht) (by simp)

/-- With a token match at the head and the whitespace/digit decomposition,
the digit run the scanner takes is nonempty. -/
theorem digitRun_ne_nil {ws ds post : List Char} (hws : ∀ c ∈ ws, isPySpace c)
    (hds : ds ≠ []) (hdig : ∀ c ∈ ds, isPyDigit c) :
    ((ws ++ (ds ++ post)).dropWhile isPySpace).takeWhile isPyDigit ≠ [] := by
  rw [dropWhile_append_of_all hws]
  cases ds with
  | nil => exact absurd rfl hds
  | cons d ds' =>
    have hd : isPyDigit d := hdig d (List.mem_cons_self _ _)
    rw [List.cons_append, List.dropWhile_cons, if_neg (by rw [not_space_of_digit hd]; simp)]
    rw [List.takeWhile_cons, if_pos hd]
    simp

theorem findAge_isSome_iff : ∀ l : List Char, (findAge l).isSome ↔ AgeMatchable l := by
  intro l
  induction l with
  | nil =>
    rw [findAge]
    simp only [Option.isSome_none, Bool.false_eq_true, false_iff]
    rintro ⟨pre, tok, ws, ds, post, htok, _, hds, _, heq⟩
    have hlen := congrArg List.length heq
    simp at hlen
    have htl : tok.length = 3 := by fin_cases htok <;> rfl
    have hdl : 1 ≤ ds.length := List.length_pos.mpr hds
    omega
  | cons c rest ih =>
    rw [findAge]
    cases hm : matchAgeTok (c :: rest) with
    | some after =>
      by_cases hempty : ((after.dropWhile isPySpace).takeWhile isPyDigit) = []
      · show (if (after.dropWhile isPySpace).takeWhile isPyDigit = [] then findAge rest
            else some (digitsVal ((after.dropWhile isPySpace).takeWhile isPyDigit))).isSome =
              true ↔ AgeMatchable (c :: rest)
        rw [if_pos hempty]
        rw [ih]
        constructor
        · rintro ⟨pre, tok, ws, ds, post, htok, hws, hds, hdig, heq⟩
          exact ⟨c :: pre, tok, ws, ds, post, htok, hws, hds, hdig, by simp [heq]⟩
        · rintro ⟨pre, tok, ws, ds, post, htok, hws, hds, hdig, heq⟩
          cases pre with
          | nil =>
            exfalso
            simp only [List.nil_append] at heq
            rw [heq, matchAgeTok_complete htok] at hm
            injection hm with hm'
            subst hm'
            exact digitRun_ne_nil hws hds hdig hempty
          | cons x pre' =>
            simp only [List.cons_append] at heq
            injection heq with h1 h2
            exact ⟨pre', tok, ws, ds, post, htok, hws, hds, hdig, h2⟩
      · show (if (after.dropWhile isPySpace).takeWhile isPyDigit = [] then findAge rest
            else some (digitsVal ((after.dropWhile isPySpace).takeWhile isPyDigit))).isSome =
              true ↔ AgeMatchable (c :: rest)
        rw [if_neg hempty]
        simp only [Option.isSome_some, true_iff]
        obtain ⟨tok, htok, heq⟩ := matchAgeTok_spec hm
        refine ⟨[], tok, after.takeWhile isPySpace,
          (after.dropWhile isPySpace).takeWhile isPyDigit,
          (after.dropWhile isPySpace).dropWhile isPyDigit, htok,
          fun c hc => List.mem_takeWhile_imp hc, hempty,
          fun c hc => List.mem_takeWhile_imp hc, ?_⟩
        rw [List.nil_append, heq]
        rw [List.takeWhile_append_dropWhile, List.takeWhile_append_dropWhile]
    | none =>
      show (findAge rest).isSome = true ↔ AgeMatchable (c :: rest)
      rw [ih]
      constructor
      · rintro ⟨pre, tok, ws, ds, post, htok, hws, hds, hdig, heq⟩
        exact ⟨c :: pre, tok, ws, ds, post, htok, hws, hds, hdig, by simp [heq]⟩
      · rintro ⟨pre, tok, ws, ds, post, htok, hws, hds, hdig, heq⟩
        cases pre with
        | nil =>
          exfalso
          simp only [List.nil_append] at heq
          rw [heq, matchAgeTok_complete htok] at hm
          exact Option.noConfusion hm
        | cons x pre' =>
          simp only [List.cons_append] at heq
          injection heq with h1 h2
          exact ⟨pre', tok, ws, ds, post, htok, hws, hds, hdig, h2⟩

/-- C7 counterexample.  The search is not case-insensitive: the mixed casing
`aGe` is not found (`Age` stays absent), though the claim says any casing of
the token works; the all-caps casing `AGE` is found. -/
theorem c7_age_case_counterexample :
    (deriveBirth (Cell.str "(aGe 74)")).2.2 = Cell.na ∧
      (deriveBirth (Cell.str "(AGE 74)")).2.2 = Cell.nat 74 := by
  constructor <;> decide

/-- C7 (amended).  `Age` is derived by searching the original
`Date of birth` text for one of the three literal casings `age`, `Age`,
`AGE` (not arbitrary casing) followed by optional whitespace and digits; the
matched digits become `Age`, else `Age` is absent.  The match succeeds
exactly when the text decomposes as token + whitespace + nonempty digit
run. -/
theorem c7_age_derivation :
    (deriveBirth (Cell.str "January 1, 1950 (age 74)")).2.2 = Cell.nat 74 ∧
    (deriveBirth (Cell.str "(AGE 74)")).2.2 = Cell.nat 74 ∧
    (∀ s : String, (deriveBirth (Cell.str s)).2.2 =
      (match findAge s.data with
        | some n => Cell.nat n
        | none => Cell.na)) ∧
    (∀ s : String, (findAge s.data).isSome ↔ AgeMatchable s.data) := by
  refine ⟨by decide, by decide, ?_, fun s => findAge_isSome_iff s.data⟩
  intro s
  rcases h : parseUsDate (beforeParen s.data) with _ | ⟨⟨y, m, d⟩⟩
  · simp [deriveBirth, h]
  · simp [deriveBirth, h]

/-! ### Merge (towards C8) -/

theorem mem_unionCols_foldl (x : String) :
    ∀ (dfs : List Df) (acc : List String),
      x ∈ dfs.foldl (fun acc d => acc ++ d.cols.filter (fun c => c ∉ acc)) acc ↔
        x ∈ acc ∨ ∃ d ∈ dfs, x ∈ d.cols := by
  intro dfs
  induction dfs with
  | nil => intro acc; simp
  | cons d dfs ih =>
    intro acc
    rw [List.foldl_cons, ih]
    simp only [List.mem_append, List.mem_filter, List.mem_cons]
    constructor
    · rintro ((h | ⟨h1, _⟩) | ⟨d', hd', hx⟩)
      · exact Or.inl h
      · exact Or.inr ⟨d, Or.inl rfl, h1⟩
      · exact Or.inr ⟨d', Or.inr hd', hx⟩
    · rintro (h | ⟨d', hd' | hd', hx⟩)
      · exact Or.inl (Or.inl h)
      · by_cases hacc : x ∈ acc
        · exact Or.inl (Or.inl hacc)
        · exact Or.inl (Or.inr ⟨hd' ▸ hx, by simpa using hacc⟩)
      · exact Or.inr ⟨d', hd', hx⟩

theorem mem_unionCols {x : String} {dfs : List Df} :
    x ∈ unionCols dfs ↔ ∃ d ∈ dfs, x ∈ d.cols := by
  unfold unionCols
  rw [mem_unionCols_foldl]
  simp

/-- C8.  Merging concatenates all datasets preserving row order and count
(no deduplication), the result schema is the union of the input schemas, and
every reindexed row agrees with its source row on every column name (absent
columns read as the absent marker `na`).  In particular, merging
`{A, B}`-and-`{B, C}`-shaped datasets yields columns `A, B, C` with `C`
absent in rows from the first and `A` absent in rows from the second. -/
theorem c8_merge_union :
    (∀ dfs : List Df,
      (concatUnion dfs).rows.length = (dfs.map (fun d => d.rows.length)).sum) ∧
    (∀ (dfs : List Df) (c : String), c ∈ (concatUnion dfs).cols ↔ ∃ d ∈ dfs, c ∈ d.cols) ∧
    (∀ (dfs : List Df), ∀ d ∈ dfs, ∀ row ∈ d.rows,
      ((concatUnion dfs).cols.map (colVal d.cols row)) ∈ (concatUnion dfs).rows ∧
      ∀ c : String,
        colVal (concatUnion dfs).cols ((concatUnion dfs).cols.map (colVal d.cols row)) c =
          colVal d.cols row c) ∧
    concatUnion
        [{ cols := ["A", "B"], rows := [[Cell.nat 1, Cell.nat 2]] },
          { cols := ["B", "C"], rows := [[Cell.nat 3, Cell.nat 4]] }] =
      { cols := ["A", "B", "C"],
        rows := [[Cell.nat 1, Cell.nat 2, Cell.na], [Cell.na, Cell.nat 3, Cell.nat 4]] } := by
  refine ⟨?_, ?_, ?_, by decide⟩
  · intro dfs
    show (dfs.flatMap fun d => d.rows.map fun row => (unionCols dfs).map (colVal d.cols row)).length = _
    rw [List.length_flatMap]
    congr 1
    simp
  · intro dfs c
    exact mem_unionCols
  · intro dfs d hd row hrow
    constructor
    · show _ ∈ dfs.flatMap fun d => d.rows.map fun row => (unionCols dfs).map (colVal d.cols row)
      rw [List.mem_flatMap]
      exact ⟨d, hd, List.mem_map.mpr ⟨row, hrow, rfl⟩⟩
    · intro c
      by_cases hc : c ∈ (concatUnion dfs).cols
      · exact colVal_map_reindex d.cols row (concatUnion dfs).cols c hc
      · rw [colVal_absent _ hc, colVal_absent row (fun hmem => hc (mem_unionCols.mpr ⟨d, hd, hmem⟩))]

/-! ### Error containment and the derivation stage's raises (towards C4) -/

theorem dobStepE_ok {b : Bool} {df d : Df} (h : dobStepE b df = Except.ok d) :
    d = dobStep df := by
  unfold dobStepE at h
  split_ifs at h
  all_goals first
    | exact (Except.ok.inj h).symm
    | (rw [← Except.ok.inj h]
       unfold dobStep
       rw [if_neg (by assumption)])

theorem yearsStepE_ok {b : Bool} {df d : Df} (h : yearsStepE b df = Except.ok d) :
    d = yearsStep df := by
  unfold yearsStepE at h
  split_ifs at h
  all_goals first
    | exact (Except.ok.inj h).symm
    | (rw [← Except.ok.inj h]
       unfold yearsStep
       rw [if_neg (by assumption)])

theorem stateStepE_ok {b : Bool} {df d : Df} (h : stateStepE b df = Except.ok d) :
    d = stateStep df := by
  unfold stateStepE at h
  split_ifs at h
  all_goals first
    | exact (Except.ok.inj h).symm
    | (rw [← Except.ok.inj h]
       unfold stateStep
       rw [if_neg (by assumption)])

theorem birthDateFormatStepE_ok {df d : Df} (h : birthDateFormatStepE df = Except.ok d) :
    d = birthDateFormatStep df := by
  unfold birthDateFormatStepE at h
  split_ifs at h
  all_goals first
    | exact (Except.ok.inj h).symm
    | (rw [← Except.ok.inj h]
       unfold birthDateFormatStep
       rw [if_neg (by assumption)])

/-- On every input on which the derivation stage does not raise, the
fallible driver returns exactly the raise-free frame. -/
theorem createCabinetE_ok {admin : String} {tables : List RawTable} {df : Df}
    (h : createCabinetE admin tables = Except.ok df) :
    df = createCabinet admin tables := by
  unfold createCabinetE at h
  unfold createCabinet
  by_cases hemp : (processedTables admin tables).isEmpty
  · rw [if_pos hemp] at h
    rw [if_pos hemp, ← Except.ok.inj h]
  · rw [if_neg hemp] at h
    rw [if_neg hemp]
    split at h
    · exact absurd h (by simp)
    · rename_i d1 h1
      split at h
      · exact absurd h (by simp)
      · rename_i d2 h2
        split at h
        · exact absurd h (by simp)
        · rename_i d3 h3
          split at h
          · exact absurd h (by simp)
          · rename_i d4 h4
            rw [← Except.ok.inj h, birthDateFormatStepE_ok h4, stateStepE_ok h3,
              yearsStepE_ok h2, dobStepE_ok h1]
            rfl

/-- C4 (amended).  Any exception while processing ONE TABLE is caught at
the table boundary: an erroring table (and an explicitly skipped one)
contributes zero records and leaves the rest of the run unchanged; an
unreadable file is skipped by the merge the same way; and on empty inputs
both batch functions return an empty frame.  The per-source batch function
however does NOT always return rather than raising: the field-derivation
stage runs outside the per-table `try`, and a non-object-dtype column makes
its `.str` accessor raise an uncaught `AttributeError` (last conjunct). -/
theorem c4_error_containment :
    (∀ (admin : String) (ts1 ts2 : List RawTable) (bad : RawTable) (e : String),
      processTableE admin bad = Except.error e →
        createCabinetE admin (ts1 ++ bad :: ts2) = createCabinetE admin (ts1 ++ ts2)) ∧
    (∀ (admin : String) (ts1 ts2 : List RawTable) (bad : RawTable),
      processTableE admin bad = Except.ok none →
        createCabinetE admin (ts1 ++ bad :: ts2) = createCabinetE admin (ts1 ++ ts2)) ∧
    (∀ (store : String → Except String Df) (fs1 fs2 : List String) (f e : String),
      store f = Except.error e →
        combineCabinets store (fs1 ++ f :: fs2) = combineCabinets store (fs1 ++ fs2)) ∧
    (∀ admin : String, createCabinetE admin [] = Except.ok { cols := [], rows := [] }) ∧
    (∀ store : String → Except String Df,
      combineCabinets store [] = { cols := [], rows := [] }) ∧
    (∃ e : String,
      createCabinetE "Biden" [RawTable.mk true ["Secretary", "Secretary"]
        ["Official", "Years"] [[Cell.str "Alice", Cell.nat 2017]]] = Except.error e) := by
  refine ⟨?_, ?_, ?_, fun _ => rfl, fun _ => rfl,
    ⟨"AttributeError: Can only use .str accessor with string values!", rfl⟩⟩
  · intro admin ts1 ts2 bad e h
    unfold createCabinetE processedTables
    rw [List.filterMap_append, List.filterMap_append, List.filterMap_cons, h]
  · intro admin ts1 ts2 bad h
    unfold createCabinetE processedTables
    rw [List.filterMap_append, List.filterMap_append, List.filterMap_cons, h]
  · intro store fs1 fs2 f e h
    unfold combineCabinets
    rw [List.filterMap_append, List.filterMap_append, List.filterMap_cons, h]

set_option maxHeartbeats 1000000 in
/-- C4 counterexample.  One accepted table whose `Years` column holds only
bare numbers: `pd.read_html` parses it as int64, the table itself processes
fine inside the `try` (second conjunct), but
`final_df["Years"].str.extract` at line 139 then raises `AttributeError`
outside any `try` — the per-source batch function raises instead of
returning a result. -/
theorem c4_error_containment_counterexample :
    createCabinetE "Biden" [RawTable.mk true ["Secretary", "Secretary"]
        ["Official", "Years"] [[Cell.str "Alice", Cell.nat 2017]]] =
      Except.error "AttributeError: Can only use .str accessor with string values!" ∧
    processTableE "Biden" (RawTable.mk true ["Secretary", "Secretary"]
        ["Official", "Years"] [[Cell.str "Alice", Cell.nat 2017]]) =
      Except.ok (some
        { cols := ["Official", "Years", "Position", "Administration"],
          rows := [[Cell.str "Alice", Cell.nat 2017, Cell.str "Secretary",
            Cell.str "Biden"]] }) :=
  ⟨rfl, rfl⟩

/-- Witness for C4: a concrete raising table (a two-level header with no
columns makes `df.columns[0][0]` raise `IndexError`, caught at the table
boundary) and a concrete unreadable file. -/
theorem c4_error_containment_witness :
    createCabinetE "Biden" ([] ++ RawTable.mk true [] [] [] :: []) =
        createCabinetE "Biden" ([] ++ []) ∧
      combineCabinets (fun _ => Except.error "unreadable") ([] ++ "a.csv" :: []) =
        combineCabinets (fun _ => Except.error "unreadable") ([] ++ []) :=
  ⟨c4_error_containment.1 "Biden" [] [] (RawTable.mk true [] [] [])
      "IndexError: index 0 is out of bounds" rfl,
    c4_error_containment.2.2.1 (fun _ => Except.error "unreadable") [] [] "a.csv"
      "unreadable" rfl⟩

/-! ### Column reordering (towards C2) -/

theorem pyListLe_total : ∀ a b : List Char, pyListLe a b = true ∨ pyListLe b a = true := by
  intro a
  induction a with
  | nil => intro b; exact Or.inl rfl
  | cons x xs ih =>
    intro b
    cases b with
    | nil => exact Or.inr rfl
    | cons y ys =>
      rw [pyListLe, pyListLe]
      by_cases hxy : x = y
      · subst hxy
        rw [if_pos rfl, if_pos rfl]
        exact ih ys
      · rw [if_neg hxy, if_neg (Ne.symm hxy)]
        rcases lt_trichotomy x y with h | h | h
        · exact Or.inl (decide_eq_true h)
        · exact absurd h hxy
        · exact Or.inr (decide_eq_true h)

theorem pyListLe_trans : ∀ a b c : List Char,
    pyListLe a b = true → pyListLe b c = true → pyListLe a c = true := by
  intro a
  induction a with
  | nil => intro b c _ _; rfl
  | cons x xs ih =>
    intro b c hab hbc
    cases b with
    | nil => rw [pyListLe] at hab; exact absurd hab (by simp)
    | cons y ys =>
      cases c with
      | nil => rw [pyListLe] at hbc; exact absurd hbc (by simp)
      | cons z zs =>
        rw [pyListLe] at hab hbc ⊢
        by_cases hxy : x = y
        · subst hxy
          rw [if_pos rfl] at hab
          by_cases hyz : x = z
          · subst hyz
            rw [if_pos rfl] at hbc ⊢
            exact ih ys zs hab hbc
          · rw [if_neg hyz] at hbc ⊢
            exact hbc
        · rw [if_neg hxy] at hab
          have hx_lt_y : x < y := of_decide_eq_true hab
          by_cases hyz : y = z
          · subst hyz
            rw [if_neg hxy]
            exact decide_eq_true hx_lt_y
          · rw [if_neg hyz] at hbc
            have hy_lt_z : y < z := of_decide_eq_true hbc
            have hxz : x < z := lt_trans hx_lt_y hy_lt_z
            rw [if_neg (ne_of_lt hxz)]
            exact decide_eq_true hxz

instance pyStrLeIsTotal : IsTotal String (fun x y => pyStrLe x y = true) :=
  ⟨fun a b => pyListLe_total a.data b.data⟩

instance pyStrLeIsTrans : IsTrans String (fun x y => pyStrLe x y = true) :=
  ⟨fun a b c hab hbc => pyListLe_trans a.data b.data c.data hab hbc⟩

/-- C2 counterexample.  With derived tenure columns present in their
creation order, the code emits the non-priority columns sorted
alphabetically (`Current, End year, Start year, Years`), not in their
existing order (`Years, Start year, End year, Current`) as the claim
states — `pandas.Index.difference` sorts by default. -/
theorem c2_column_order_counterexample :
    (reorderColumns
          { cols := ["Name", "Years", "Start year", "End year", "Current"], rows := [] }).cols =
        ["Name", "Current", "End year", "Start year", "Years"] ∧
      (reorderColumns
          { cols := ["Name", "Years", "Start year", "End year", "Current"], rows := [] }).cols ≠
        ["Name", "Years", "Start year", "End year", "Current"] := by
  constructor <;> decide

/-- C2 (amended).  After column pruning, the output column order is the
priority list `Administration, Position, Name, Age, State, Date of birth,
Birth Year, Background` restricted to the present columns, in exactly that
order, followed by all other columns SORTED ascending by string comparison
(not in their previous relative order): the code's `Index.difference` call
sorts the remainder.  No column is lost or duplicated. -/
theorem c2_column_order (df : Df) (hnodup : df.cols.Nodup) :
    (reorderColumns df).cols =
        priorityCols.filter (fun c => c ∈ df.cols) ++ indexDifference df.cols priorityCols ∧
      (reorderColumns df).cols.Perm df.cols ∧
      List.Sorted (fun x y => pyStrLe x y = true) (indexDifference df.cols priorityCols) ∧
      (∀ c, c ∈ indexDifference df.cols priorityCols ↔ c ∈ df.cols ∧ c ∉ priorityCols) := by
  have hpnodup : priorityCols.Nodup := by decide
  have hmem_diff : ∀ c, c ∈ indexDifference df.cols priorityCols ↔
      c ∈ df.cols ∧ c ∉ priorityCols := by
    intro c
    unfold indexDifference
    rw [(List.perm_insertionSort _ _).mem_iff, List.mem_filter]
    simp
  have hcols : (reorderColumns df).cols =
      priorityCols.filter (fun c => c ∈ df.cols) ++ indexDifference df.cols priorityCols := by
    show priorityCols.filter (fun c => c ∈ indexIntersection df.cols priorityCols) ++
        indexDifference df.cols priorityCols = _
    congr 1
    refine List.filter_congr ?_
    intro x hx
    unfold indexIntersection
    simp [List.mem_filter, hx]
  refine ⟨hcols, ?_, ?_, hmem_diff⟩
  · rw [hcols]
    have h1 : (priorityCols.filter (fun c => c ∈ df.cols)).Perm
        (df.cols.filter (fun c => c ∈ priorityCols)) := by
      refine List.perm_of_nodup_nodup_toFinset_eq (hpnodup.filter _) (hnodup.filter _) ?_
      ext x
      simp [List.mem_filter, and_comm]
    have h2 : (indexDifference df.cols priorityCols).Perm
        (df.cols.filter (fun c => c ∉ priorityCols)) :=
      List.perm_insertionSort _ _
    refine (h1.append h2).trans ?_
    have := List.filter_append_perm (fun c => c ∈ priorityCols) df.cols
    refine List.Perm.trans ?_ this
    refine List.Perm.append (List.Perm.refl _) ?_
    refine List.Perm.of_eq (List.filter_congr ?_)
    intro x _
    simp
  · exact List.sorted_insertionSort _ _

/-- Witness for C2: a concrete column set with both priority and
non-priority names. -/
theorem c2_column_order_witness :
    (reorderColumns { cols := ["Years", "Name", "Current"], rows := [] }).cols =
        priorityCols.filter (fun c => c ∈ ["Years", "Name", "Current"]) ++
          indexDifference ["Years", "Name", "Current"] priorityCols ∧
      (reorderColumns { cols := ["Years", "Name", "Current"], rows := [] }).cols.Perm
        ["Years", "Name", "Current"] ∧
      List.Sorted (fun x y => pyStrLe x y = true)
        (indexDifference ["Years", "Name", "Current"] priorityCols) ∧
      (∀ c, c ∈ indexDifference ["Years", "Name", "Current"] priorityCols ↔
        c ∈ ["Years", "Name", "Current"] ∧ c ∉ priorityCols) :=
  c2_column_order { cols := ["Years", "Name", "Current"], rows := [] } (by decide)

/-! ### Frame operations: alignment and per-row behaviour -/

theorem selectCols_aligned (df : Df) (names : List String) : (selectCols df names).Aligned := by
  intro row hrow
  simp only [selectCols, List.mem_map] at hrow
  obtain ⟨r, _, rfl⟩ := hrow
  simp [selectCols]

theorem setColF_aligned {df : Df} (h : df.Aligned) (name : String) (f : List Cell → Cell) :
    (setColF df name f).Aligned := by
  intro row hrow
  unfold setColF at hrow ⊢
  by_cases hmem : name ∈ df.cols
  · simp only [if_pos hmem] at hrow ⊢
    simp only [List.mem_map] at hrow
    obtain ⟨r, hr, rfl⟩ := hrow
    rw [List.length_zipWith]
    have := h r hr
    omega
  · simp only [if_neg hmem] at hrow ⊢
    simp only [List.mem_map] at hrow
    obtain ⟨r, hr, rfl⟩ := hrow
    have := h r hr
    simp [this]

theorem filter_aligned {df : Df} (h : df.Aligned) (p : List Cell → Bool) :
    Df.Aligned { cols := df.cols, rows := df.rows.filter p } := by
  intro row hrow
  exact h row (List.mem_filter.mp hrow).1

theorem setColF_mem_cols {df : Df} (name : String) (f : List Cell → Cell) {c : String}
    (hc : c ∈ df.cols) : c ∈ (setColF df name f).cols := by
  unfold setColF
  by_cases hmem : name ∈ df.cols
  · rw [if_pos hmem]; exact hc
  · rw [if_neg hmem]; exact List.mem_append_left _ hc

theorem setColF_mem_self (df : Df) (name : String) (f : List Cell → Cell) :
    name ∈ (setColF df name f).cols := by
  unfold setColF
  by_cases hmem : name ∈ df.cols
  · rw [if_pos hmem]; exact hmem
  · rw [if_neg hmem]; exact List.mem_append_right _ (List.mem_cons_self _ _)

theorem setColF_rows_length (df : Df) (name : String) (f : List Cell → Cell) :
    (setColF df name f).rows.length = df.rows.length := by
  unfold setColF
  by_cases hmem : name ∈ df.cols <;> simp [hmem]

/-- Each row of a `setColF` result comes from a source row: the assigned
column reads the assigned value, every other column name is unchanged. -/
theorem setColF_rows_spec {df : Df} (halign : df.Aligned) (name : String)
    (f : List Cell → Cell) :
    ∀ row' ∈ (setColF df name f).rows, ∃ row ∈ df.rows,
      colVal (setColF df name f).cols row' name = f row ∧
      ∀ c : String, c ≠ name →
        colVal (setColF df name f).cols row' c = colVal df.cols row c := by
  intro row' hrow'
  by_cases hmem : name ∈ df.cols
  · simp only [setColF, if_pos hmem, List.mem_map] at hrow' ⊢
    obtain ⟨row, hrow, rfl⟩ := hrow'
    refine ⟨row, hrow, ?_, ?_⟩
    · exact colVal_zipWith_set df.cols row name (f row) hmem (le_of_eq (halign row hrow).symm)
    · intro c hc
      exact colVal_zipWith_other df.cols row name (f row) c hc
  · simp only [setColF, if_neg hmem, List.mem_map] at hrow' ⊢
    obtain ⟨row, hrow, rfl⟩ := hrow'
    refine ⟨row, hrow, ?_, ?_⟩
    · exact colVal_append_fresh df.cols row name (f row) (halign row hrow) hmem
    · intro c hc
      exact colVal_append_other df.cols row name (f row) c (halign row hrow) hc

theorem selectCols_rows_spec (df : Df) (names : List String) :
    ∀ row' ∈ (selectCols df names).rows, ∃ row ∈ df.rows,
      ∀ c ∈ names, colVal names row' c = colVal df.cols row c := by
  intro row' hrow'
  simp only [selectCols, List.mem_map] at hrow'
  obtain ⟨row, hrow, rfl⟩ := hrow'
  exact ⟨row, hrow, fun c hc => colVal_map_reindex df.cols row names c hc⟩

theorem replaceNaTokens_colVal (cols : List String) (row : List Cell) (c : String) :
    colVal cols (row.map replaceCellNa) c = replaceCellNa (colVal cols row c) := by
  induction cols generalizing row with
  | nil => cases row <;> rfl
  | cons cn cols ih =>
    cases row with
    | nil => rfl
    | cons v vs =>
      rw [List.map_cons, colVal, colVal]
      by_cases hc : cn = c
      · rw [if_pos hc, if_pos hc]
      · rw [if_neg hc, if_neg hc]
        exact ih vs

/-! ### The `Administration` column through the pipeline (towards C10) -/

/-- Pipeline invariant: an `Administration` column exists, rows are aligned,
and every row carries the supplied label there. -/
def AdminInv (admin : String) (df : Df) : Prop :=
  "Administration" ∈ df.cols ∧ df.Aligned ∧
    ∀ row ∈ df.rows, colVal df.cols row "Administration" = Cell.str admin

theorem adminInv_setColF {admin : String} {df : Df} (h : AdminInv admin df) {name : String}
    (hname : name ≠ "Administration") (f : List Cell → Cell) :
    AdminInv admin (setColF df name f) := by
  obtain ⟨hmem, halign, hval⟩ := h
  refine ⟨setColF_mem_cols name f hmem, setColF_aligned halign name f, ?_⟩
  intro row' hrow'
  obtain ⟨row, hrow, _, hother⟩ := setColF_rows_spec halign name f row' hrow'
  rw [hother _ (Ne.symm hname)]
  exact hval row hrow

theorem adminInv_selectCols {admin : String} {df : Df} (h : AdminInv admin df)
    {names : List String} (hmem : "Administration" ∈ names) :
    AdminInv admin (selectCols df names) := by
  refine ⟨hmem, selectCols_aligned df names, ?_⟩
  intro row' hrow'
  obtain ⟨row, hrow, hvals⟩ := selectCols_rows_spec df names row' hrow'
  show colVal names row' "Administration" = Cell.str admin
  rw [hvals _ hmem]
  exact h.2.2 row hrow

theorem adminInv_replace {admin : String} (h1 : admin ≠ "") (h2 : admin ≠ "N/A") {df : Df}
    (h : AdminInv admin df) : AdminInv admin (replaceNaTokens df) := by
  obtain ⟨hmem, halign, hval⟩ := h
  refine ⟨hmem, ?_, ?_⟩
  · intro row hrow
    simp only [replaceNaTokens, List.mem_map] at hrow
    obtain ⟨r, hr, rfl⟩ := hrow
    simpa [replaceNaTokens] using halign r hr
  · intro row' hrow'
    simp only [replaceNaTokens, List.mem_map] at hrow'
    obtain ⟨row, hrow, rfl⟩ := hrow'
    show colVal df.cols (row.map replaceCellNa) "Administration" = Cell.str admin
    rw [replaceNaTokens_colVal, hval row hrow]
    simp [replaceCellNa, h1, h2]

theorem adminInv_concatUnion {admin : String} {dfs : List Df} (hne : dfs ≠ [])
    (hinv : ∀ d ∈ dfs, AdminInv admin d) : AdminInv admin (concatUnion dfs) := by
  obtain ⟨d0, dfs', rfl⟩ : ∃ d0 dfs', dfs = d0 :: dfs' := by
    cases dfs with
    | nil => exact absurd rfl hne
    | cons d0 dfs' => exact ⟨d0, dfs', rfl⟩
  have hmem : "Administration" ∈ unionCols (d0 :: dfs') :=
    mem_unionCols.mpr ⟨d0, List.mem_cons_self _ _, (hinv d0 (List.mem_cons_self _ _)).1⟩
  refine ⟨hmem, ?_, ?_⟩
  · intro row hrow
    simp only [concatUnion, List.mem_flatMap, List.mem_map] at hrow
    obtain ⟨d, _, r, _, rfl⟩ := hrow
    simp [concatUnion]
  · intro row' hrow'
    simp only [concatUnion, List.mem_flatMap, List.mem_map] at hrow'
    obtain ⟨d, hd, r, hr, rfl⟩ := hrow'
    show colVal (unionCols (d0 :: dfs')) ((unionCols (d0 :: dfs')).map (colVal d.cols r))
        "Administration" = Cell.str admin
    rw [colVal_map_reindex d.cols r _ _ hmem]
    exact (hinv d hd).2.2 r hr

theorem adminInv_dropAllNaCols {admin : String} {df : Df} (h : AdminInv admin df)
    (hrows : df.rows ≠ []) : AdminInv admin (dropAllNaCols df) := by
  refine adminInv_selectCols h ?_
  rw [List.mem_filter]
  refine ⟨h.1, ?_⟩
  obtain ⟨r, rs, hr⟩ : ∃ r rs, df.rows = r :: rs := by
    cases hx : df.rows with
    | nil => exact absurd hx hrows
    | cons a b => exact ⟨a, b, rfl⟩
  have hval := h.2.2 r (by rw [hr]; exact List.mem_cons_self _ _)
  have hfalse : df.rows.all
      (fun row => colVal df.cols row "Administration" == Cell.na) = false := by
    cases hall : df.rows.all (fun row => colVal df.cols row "Administration" == Cell.na) with
    | false => rfl
    | true =>
      have := List.all_eq_true.mp hall r (by rw [hr]; exact List.mem_cons_self _ _)
      rw [hval, beq_iff_eq] at this
      exact Cell.noConfusion this
  show (!(df.rows.all fun row => colVal df.cols row "Administration" == Cell.na)) = true
  rw [hfalse]
  rfl

theorem adminInv_dropRedundant {admin : String} {df : Df} (h : AdminInv admin df) :
    AdminInv admin (dropRedundant df) := by
  refine adminInv_selectCols h ?_
  rw [List.mem_filter]
  exact ⟨h.1, by decide⟩

theorem adminInv_reorder {admin : String} {df : Df} (h : AdminInv admin df) :
    AdminInv admin (reorderColumns df) := by
  refine adminInv_selectCols h ?_
  refine List.mem_append_left _ ?_
  rw [List.mem_filter]
  refine ⟨by decide, ?_⟩
  have : "Administration" ∈ indexIntersection df.cols priorityCols := by
    unfold indexIntersection
    rw [List.mem_filter]
    exact ⟨h.1, by decide⟩
  simpa using this

theorem adminInv_dobStep {admin : String} {df : Df} (h : AdminInv admin df) :
    AdminInv admin (dobStep df) := by
  unfold dobStep
  by_cases hc : "Date of birth" ∈ df.cols
  · rw [if_pos hc]
    exact adminInv_setColF (adminInv_setColF (adminInv_setColF h (by decide) _) (by decide) _)
      (by decide) _
  · rw [if_neg hc]; exact h

theorem adminInv_yearsStep {admin : String} {df : Df} (h : AdminInv admin df) :
    AdminInv admin (yearsStep df) := by
  unfold yearsStep
  by_cases hc : "Years" ∈ df.cols
  · rw [if_pos hc]
    exact adminInv_setColF (adminInv_setColF (adminInv_setColF h (by decide) _) (by decide) _)
      (by decide) _
  · rw [if_neg hc]; exact h

theorem adminInv_stateStep {admin : String} {df : Df} (h : AdminInv admin df) :
    AdminInv admin (stateStep df) := by
  unfold stateStep
  by_cases hc : "State" ∉ df.cols ∧ "Background" ∈ df.cols
  · rw [if_pos hc]
    exact adminInv_setColF h (by decide) _
  · rw [if_neg hc]; exact h

theorem adminInv_birthDateFormat {admin : String} {df : Df} (h : AdminInv admin df) :
    AdminInv admin (birthDateFormatStep df) := by
  unfold birthDateFormatStep
  by_cases hc : "Birth Date" ∈ df.cols
  · rw [if_pos hc]
    exact adminInv_setColF h (by decide) _
  · rw [if_neg hc]; exact h

/-! ### The normalizer's `Name` handling (towards C3) -/

theorem filterNameRows_cols (df : Df) : (filterNameRows df).cols = df.cols := by
  unfold filterNameRows
  split <;> rfl

theorem filterNameRows_aligned {df : Df} (h : df.Aligned) : (filterNameRows df).Aligned := by
  unfold filterNameRows
  split
  · exact filter_aligned h _
  · exact h

theorem adminInv_filterNameRows {admin : String} {df : Df} (h : AdminInv admin df) :
    AdminInv admin (filterNameRows df) := by
  unfold filterNameRows
  split
  · exact ⟨h.1, filter_aligned h.2.1 _, fun row hrow => h.2.2 row (List.mem_filter.mp hrow).1⟩
  · exact h

/-- Every surviving row's raw `Name` value is neither absent nor the header
token (the filter of lines 81-83 ran on it). -/
theorem filterNameRows_name_spec {df : Df} (hname : "Name" ∈ df.cols) :
    ∀ row ∈ (filterNameRows df).rows,
      colVal df.cols row "Name" ≠ Cell.na ∧ colVal df.cols row "Name" ≠ Cell.str "Name" := by
  intro row hrow
  unfold filterNameRows at hrow
  rw [if_pos hname] at hrow
  have hmem : row ∈ df.rows.filter (fun row =>
      !(colVal df.cols row "Name" == Cell.na) &&
        !(colVal df.cols row "Name" == Cell.str "Name")) := hrow
  have h2 := (List.mem_filter.mp hmem).2
  rw [Bool.and_eq_true, Bool.not_eq_true', Bool.not_eq_true', beq_eq_false_iff_ne,
    beq_eq_false_iff_ne] at h2
  exact h2

theorem adminInv_cleanNameStep {admin : String} {df : Df} (h : AdminInv admin df) :
    AdminInv admin (cleanNameStep df) := by
  unfold cleanNameStep
  split
  · exact adminInv_setColF h (by decide) _
  · exact h

/-- A successfully processed table's frame, in terms of the named steps. -/
theorem processTableE_ok_eq {admin : String} {t : RawTable} {df : Df}
    (h : processTableE admin t = Except.ok (some df)) :
    df = cleanNameStep (filterNameRows (setColF
      (setColF (dropUnnamedCols (tableFrame t)) "Position"
        (fun _ => Cell.str (t.level0.headD "")))
      "Administration" (fun _ => Cell.str admin))) := by
  unfold processTableE at h
  split_ifs at h
  all_goals
    first
      | exact (Option.some.inj (Except.ok.inj h)).symm
      | exact absurd h (by simp)

/-- Every frame a table contributes carries the `Administration` label on
every row (lines 77-79 assign it after `Position`, before the `Name`
filtering and cleaning, which preserve it). -/
theorem processTableE_adminInv {admin : String} {t : RawTable} {df : Df}
    (h : processTableE admin t = Except.ok (some df)) : AdminInv admin df := by
  rw [processTableE_ok_eq h]
  have halign2 : (setColF (dropUnnamedCols (tableFrame t)) "Position"
      (fun _ => Cell.str (t.level0.headD ""))).Aligned :=
    setColF_aligned (selectCols_aligned _ _) "Position" _
  have h3 : AdminInv admin (setColF (setColF (dropUnnamedCols (tableFrame t)) "Position"
      (fun _ => Cell.str (t.level0.headD ""))) "Administration"
      (fun _ => Cell.str admin)) := by
    refine ⟨setColF_mem_self _ _ _, setColF_aligned halign2 "Administration" _, ?_⟩
    intro row' hrow'
    obtain ⟨row, _, hset, _⟩ := setColF_rows_spec halign2 "Administration" _ row' hrow'
    exact hset
  exact adminInv_cleanNameStep (adminInv_filterNameRows h3)

/-! ### Row counts through the tail of the pipeline (towards C10) -/

theorem selectCols_rows_length (df : Df) (names : List String) :
    (selectCols df names).rows.length = df.rows.length := by
  simp [selectCols]

theorem birthDateFormatStep_rows_length (df : Df) :
    (birthDateFormatStep df).rows.length = df.rows.length := by
  unfold birthDateFormatStep
  split
  · rw [setColF_rows_length]
  · rfl

/-- `int64Step` is the identity on the model, so the pipeline's tail starts
at the ISO formatting. -/
theorem derivePipeline_eq (df : Df) :
    derivePipeline df = birthDateFormatStep (reorderColumns (dropRedundant (dropAllNaCols
      (stateStep (yearsStep (dobStep (replaceNaTokens df))))))) := rfl

theorem derivePipeline_rows_length (df : Df) :
    (derivePipeline df).rows.length =
      (stateStep (yearsStep (dobStep (replaceNaTokens df)))).rows.length := by
  rw [derivePipeline_eq, birthDateFormatStep_rows_length]
  unfold reorderColumns dropRedundant dropAllNaCols
  rw [selectCols_rows_length, selectCols_rows_length, selectCols_rows_length]

set_option maxHeartbeats 4000000 in
/-- C10 counterexample.  When the supplied label is one of the null tokens
(here `"N/A"`), line 105 turns every `Administration` value into an absent
marker and line 161 (`dropna(axis=1, how="all")`) then deletes the whole
column: a non-empty result whose records carry no `Administration` field. -/
theorem c10_administration_counterexample :
    createCabinet "N/A" [RawTable.mk true ["Secretary", "Secretary"] ["Name", "Term"]
        [[Cell.nat 1974, Cell.str "2020"]]] =
      { cols := ["Position", "Name", "Term"],
        rows := [[Cell.str "Secretary", Cell.nat 1974, Cell.str "2020"]] } ∧
      "Administration" ∉ (createCabinet "N/A" [RawTable.mk true ["Secretary", "Secretary"]
        ["Name", "Term"] [[Cell.nat 1974, Cell.str "2020"]]]).cols ∧
      (createCabinet "N/A" [RawTable.mk true ["Secretary", "Secretary"] ["Name", "Term"]
        [[Cell.nat 1974, Cell.str "2020"]]]).rows ≠ [] := by
  have heval : createCabinet "N/A" [RawTable.mk true ["Secretary", "Secretary"]
      ["Name", "Term"] [[Cell.nat 1974, Cell.str "2020"]]] =
      { cols := ["Position", "Name", "Term"],
        rows := [[Cell.str "Secretary", Cell.nat 1974, Cell.str "2020"]] } := by
    decide
  refine ⟨heval, ?_, ?_⟩
  · rw [heval]
    decide
  · rw [heval]
    decide

/-- C10 (amended).  The `Administration` label is added to every row of
every accepted table, and — PROVIDED the label is neither `""` nor `"N/A"`
(the null tokens of line 105) — every record of a non-empty per-source
result carries an `Administration` field equal to the supplied label. -/
theorem c10_administration (admin : String) (tables : List RawTable)
    (h1 : admin ≠ "") (h2 : admin ≠ "N/A")
    (h3 : (createCabinet admin tables).rows ≠ []) :
    "Administration" ∈ (createCabinet admin tables).cols ∧
      ∀ row ∈ (createCabinet admin tables).rows,
        colVal (createCabinet admin tables).cols row "Administration" = Cell.str admin := by
  by_cases hemp : (processedTables admin tables).isEmpty
  · exfalso
    apply h3
    unfold createCabinet
    rw [if_pos hemp]
  · have hcc : createCabinet admin tables =
        derivePipeline (concatUnion (processedTables admin tables)) := by
      unfold createCabinet
      rw [if_neg hemp]
    rw [hcc] at h3 ⊢
    have hne : processedTables admin tables ≠ [] := by
      intro hnil
      rw [hnil] at hemp
      exact hemp rfl
    have hinv0 : ∀ d ∈ processedTables admin tables, AdminInv admin d := by
      intro d hd
      unfold processedTables at hd
      obtain ⟨t, _, hF⟩ := List.mem_filterMap.mp hd
      rcases hPT : processTableE admin t with e | o
      · rw [hPT] at hF
        simp at hF
      · rcases o with _ | df0
        · rw [hPT] at hF
          simp at hF
        · rw [hPT] at hF
          simp at hF
          rw [← hF]
          exact processTableE_adminInv hPT
    have hS : AdminInv admin (stateStep (yearsStep (dobStep (replaceNaTokens
        (concatUnion (processedTables admin tables)))))) :=
      adminInv_stateStep (adminInv_yearsStep (adminInv_dobStep (adminInv_replace h1 h2
        (adminInv_concatUnion hne hinv0))))
    have hrows : (stateStep (yearsStep (dobStep (replaceNaTokens
        (concatUnion (processedTables admin tables)))))).rows ≠ [] := by
      intro hnil
      apply h3
      have hlen := derivePipeline_rows_length (concatUnion (processedTables admin tables))
      rw [hnil] at hlen
      exact List.length_eq_zero.mp hlen
    have hfinal : AdminInv admin
        (derivePipeline (concatUnion (processedTables admin tables))) := by
      rw [derivePipeline_eq]
      exact adminInv_birthDateFormat (adminInv_reorder (adminInv_dropRedundant
        (adminInv_dropAllNaCols hS hrows)))
    exact ⟨hfinal.1, hfinal.2.2⟩

/-- C3 (amended).  The filter of lines 81-83 runs on the RAW `Name` values,
before the cleaning of lines 86-90: every output row's `Name` comes from a
raw value that was neither absent nor the literal header token `"Name"`, and
equals either that raw value (no cleaning branch) or its cleaned form —
which can be empty (or the header token) when the raw value reduces to it
after tag stripping. -/
theorem c3_name_filter_clean (admin : String) (t : RawTable) (df : Df)
    (h : processTableE admin t = Except.ok (some df)) (hname : "Name" ∈ df.cols) :
    ∀ row ∈ df.rows, ∃ raw : Cell, raw ≠ Cell.na ∧ raw ≠ Cell.str "Name" ∧
      (colVal df.cols row "Name" = raw ∨ colVal df.cols row "Name" = cleanNameCell raw) := by
  have heq := processTableE_ok_eq h
  generalize hdf3 : setColF (setColF (dropUnnamedCols (tableFrame t)) "Position"
      (fun _ => Cell.str (t.level0.headD ""))) "Administration"
      (fun _ => Cell.str admin) = df3 at heq
  have halign3 : df3.Aligned := by
    rw [← hdf3]
    exact setColF_aligned (setColF_aligned (selectCols_aligned _ _) "Position" _)
      "Administration" _
  have halign4 : (filterNameRows df3).Aligned := filterNameRows_aligned halign3
  have hcols4 : (filterNameRows df3).cols = df3.cols := filterNameRows_cols df3
  by_cases hcond : "Name" ∈ (filterNameRows df3).cols ∧
      (filterNameRows df3).rows.any
        (fun row => isStrCell (colVal (filterNameRows df3).cols row "Name"))
  · have hstep : cleanNameStep (filterNameRows df3) =
        setColF (filterNameRows df3) "Name"
          (fun row => cleanNameCell (colVal (filterNameRows df3).cols row "Name")) := by
      unfold cleanNameStep
      rw [if_pos hcond]
    rw [hstep] at heq
    have hname3 : "Name" ∈ df3.cols := hcols4 ▸ hcond.1
    intro row hrow
    rw [heq] at hrow
    obtain ⟨row4, hrow4, hset, _⟩ := setColF_rows_spec halign4 "Name" _ row hrow
    have hspec := filterNameRows_name_spec hname3 row4 hrow4
    refine ⟨colVal (filterNameRows df3).cols row4 "Name", ?_, ?_, Or.inr ?_⟩
    · rw [hcols4]
      exact hspec.1
    · rw [hcols4]
      exact hspec.2
    · rw [heq]
      exact hset
  · have hstep : cleanNameStep (filterNameRows df3) = filterNameRows df3 := by
      unfold cleanNameStep
      rw [if_neg hcond]
    rw [hstep] at heq
    have hname3 : "Name" ∈ df3.cols := by
      rw [← hcols4, ← heq]
      exact hname
    intro row hrow
    rw [heq] at hrow
    have hspec := filterNameRows_name_spec hname3 row hrow
    refine ⟨colVal df3.cols row "Name", hspec.1, hspec.2, Or.inl ?_⟩
    rw [heq, hcols4]

/-- The cleaning of a pure-markup name empties it. -/
theorem cleanName_bTag : cleanName "<b></b>" = "" := by
  have hdata : "<b></b>".data = ['<', 'b', '>', '<', '/', 'b', '>'] := rfl
  have h1 : splitAtGt ['b', '>', '<', '/', 'b', '>'] = some (['b'], ['<', '/', 'b', '>']) := rfl
  have h2 : splitAtGt ['/', 'b', '>'] = some (['/', 'b'], []) := rfl
  have hstrip : stripTagsAux ['<', 'b', '>', '<', '/', 'b', '>'] = [] := by
    rw [stripTagsAux_cons_match h1 (by decide), stripTagsAux_cons_match h2 (by decide),
      stripTagsAux_nil]
  unfold cleanName cleanNameChars collapseWs
  rw [hdata, hstrip]
  rfl

set_option maxHeartbeats 1000000 in
/-- C3 counterexample.  A raw `Name` of `"<b></b>"` passes the filter (it is
neither absent nor `"Name"`) and is then cleaned to the empty string: the
normalizer outputs a record whose `Name` is empty after tag stripping and
trimming. -/
theorem c3_name_filter_clean_counterexample :
    processTableE "Biden" (RawTable.mk true ["Secretary", "Secretary"] ["Name", "Term"]
        [[Cell.str "<b></b>", Cell.str "2020"]]) =
      Except.ok (some
        { cols := ["Name", "Term", "Position", "Administration"],
          rows := [[Cell.str "", Cell.str "2020", Cell.str "Secretary", Cell.str "Biden"]] }) ∧
      colVal ["Name", "Term", "Position", "Administration"]
        [Cell.str "", Cell.str "2020", Cell.str "Secretary", Cell.str "Biden"] "Name" =
        Cell.str "" := by
  refine ⟨?_, by decide⟩
  have h4 : processTableE "Biden" (RawTable.mk true ["Secretary", "Secretary"] ["Name", "Term"]
      [[Cell.str "<b></b>", Cell.str "2020"]]) =
      Except.ok (some (cleanNameStep
        { cols := ["Name", "Term", "Position", "Administration"],
          rows := [[Cell.str "<b></b>", Cell.str "2020", Cell.str "Secretary",
            Cell.str "Biden"]] })) := rfl
  rw [h4]
  have hcs : cleanNameStep
      { cols := ["Name", "Term", "Position", "Administration"],
        rows := [[Cell.str "<b></b>", Cell.str "2020", Cell.str "Secretary",
          Cell.str "Biden"]] } =
      { cols := ["Name", "Term", "Position", "Administration"],
        rows := [[Cell.str "", Cell.str "2020", Cell.str "Secretary", Cell.str "Biden"]] } := by
    unfold cleanNameStep
    rw [if_pos (by exact ⟨by decide, by decide⟩)]
    unfold setColF
    rw [if_pos (by decide)]
    simp only [List.map, List.zipWith, colVal]
    simp [cleanNameCell, cleanName_bTag]
  rw [hcs]

set_option maxHeartbeats 1000000 in
/-- Witness for C3: a table whose `Name` column holds no string (so the
cleaning branch is skipped) — the theorem applies with its raw value. -/
theorem c3_name_filter_clean_witness :
    ∃ raw : Cell, raw ≠ Cell.na ∧ raw ≠ Cell.str "Name" ∧
      (colVal
          ({ cols := ["Name", "Term", "Position", "Administration"],
             rows := [[Cell.nat 1974, Cell.str "2020", Cell.str "Secretary",
               Cell.str "Biden"]] } : Df).cols
          [Cell.nat 1974, Cell.str "2020", Cell.str "Secretary", Cell.str "Biden"] "Name" =
          raw ∨
        colVal
          ({ cols := ["Name", "Term", "Position", "Administration"],
             rows := [[Cell.nat 1974, Cell.str "2020", Cell.str "Secretary",
               Cell.str "Biden"]] } : Df).cols
          [Cell.nat 1974, Cell.str "2020", Cell.str "Secretary", Cell.str "Biden"] "Name" =
          cleanNameCell raw) :=
  c3_name_filter_clean "Biden"
    (RawTable.mk true ["Secretary", "Secretary"] ["Name", "Term"]
      [[Cell.nat 1974, Cell.str "2020"]])
    { cols := ["Name", "Term", "Position", "Administration"],
      rows := [[Cell.nat 1974, Cell.str "2020", Cell.str "Secretary", Cell.str "Biden"]] }
    (by rfl) (by decide)
    [Cell.nat 1974, Cell.str "2020", Cell.str "Secretary", Cell.str "Biden"] (by decide)

set_option maxHeartbeats 4000000 in
/-- Witness for C10: a concrete table processed under the label `"Biden"`,
which is neither null token, with a non-empty result. -/
theorem c10_administration_witness :
    "Administration" ∈ (createCabinet "Biden" [RawTable.mk true ["Secretary", "Secretary"]
        ["Name", "Term"] [[Cell.nat 1974, Cell.str "2020"]]]).cols ∧
      ∀ row ∈ (createCabinet "Biden" [RawTable.mk true ["Secretary", "Secretary"]
          ["Name", "Term"] [[Cell.nat 1974, Cell.str "2020"]]]).rows,
        colVal (createCabinet "Biden" [RawTable.mk true ["Secretary", "Secretary"]
            ["Name", "Term"] [[Cell.nat 1974, Cell.str "2020"]]]).cols row "Administration" =
          Cell.str "Biden" :=
  c10_administration "Biden"
    [RawTable.mk true ["Secretary", "Secretary"] ["Name", "Term"]
      [[Cell.nat 1974, Cell.str "2020"]]]
    (by decide) (by decide) (by decide)

end ScrapeData
